import Mathlib

/-!
Verification of the Nedrysoft component system (ComponentLoader / Component).

The definitions below are a shallow embedding of `src/ComponentLoader.cpp` and
`src/Component.cpp`.  Component records live in a store indexed by `Nat`
(modelling the C++ `Component *` pointers); the loader's `m_componentSearchList`
(a `QMap<QString, Component *>`) is modelled as a key-sorted association list so
that iteration order matches `QMapIterator`; Qt's JSON values are modelled by
the inductive `JsonValue`.
-/

namespace ComponentSystem

/-- Model of `QJsonValue`.  `undefined` is the value returned by
`QJsonObject::value` for a missing key (for which `isNull()` is false). -/
inductive JsonValue where
  | undefined
  | null
  | bool (b : Bool)
  | num (n : Int)
  | str (s : String)
  | arr (xs : List JsonValue)
  | obj (xs : List (String × JsonValue))

/-- Model of `QJsonObject`: an association list of keys and values. -/
abbrev JsonObject := List (String × JsonValue)

/-- `QJsonObject::value`: the value stored under a key, `undefined` if absent. -/
def JsonObject.value : JsonObject → String → JsonValue
  | [], _ => JsonValue.undefined
  | (k, v) :: rest, key => if k = key then v else JsonObject.value rest key

/-- `QJsonObject::contains`. -/
def JsonObject.containsKey (o : JsonObject) (key : String) : Bool :=
  o.any (fun e => e.1 = key)

/-- `QJsonValue::toObject` (empty object for a non-object value). -/
def JsonValue.toObject : JsonValue → JsonObject
  | JsonValue.obj xs => xs
  | _ => []

/-- `QJsonValue::toArray` (empty array for a non-array value). -/
def JsonValue.toArray : JsonValue → List JsonValue
  | JsonValue.arr xs => xs
  | _ => []

/-- `QJsonValue::toString` (empty string for a non-string value). -/
def JsonValue.toString : JsonValue → String
  | JsonValue.str s => s
  | _ => ""

/-- `QJsonValue::toBool` with its default: `false` for a non-boolean value. -/
def JsonValue.toBool : JsonValue → Bool
  | JsonValue.bool b => b
  | _ => false

/-- `QJsonValue::isNull`: true only for the JSON null value. -/
def JsonValue.isNull : JsonValue → Bool
  | JsonValue.null => true
  | _ => false

/-- `value.toVariant().toUInt()`: the numeric value as an unsigned integer
(0 for non-numeric or negative values). -/
def JsonValue.toUInt : JsonValue → Nat
  | JsonValue.num n => n.toNat
  | _ => 0

/-- `QJsonValue::operator==` against a boolean (used by
`debugBuild != applicationDebugBuild` in `addComponents`). -/
def JsonValue.eqBool : JsonValue → Bool → Bool
  | JsonValue.bool b, b' => b == b'
  | _, _ => false

/-- Model of `QVersionNumber`: its list of segments. -/
abbrev VersionNumber := List Int

/-- `QVersionNumber::compare`: lexicographic on the common segments, and on an
equal common prefix the version with more segments is the greater one. -/
def versionCompare : VersionNumber → VersionNumber → Int
  | [], [] => 0
  | [], _ :: _ => -1
  | _ :: _, [] => 1
  | a :: as, b :: bs => if a ≠ b then a - b else versionCompare as bs

/-- `QVersionNumber::operator<`. -/
def versionLtB (v1 v2 : VersionNumber) : Bool :=
  decide (versionCompare v1 v2 < 0)

/-- An ASCII decimal digit. -/
def isDigitChar (c : Char) : Bool := 48 ≤ c.toNat && c.toNat ≤ 57

/-- Split a character list on the dots, as `QString::split('.')` does. -/
def splitOnDot : List Char → List (List Char)
  | [] => [[]]
  | c :: cs =>
    if c = '.' then [] :: splitOnDot cs
    else
      match splitOnDot cs with
      | [] => [[c]]
      | seg :: rest => (c :: seg) :: rest

/-- Parse a fully numeric non-empty segment. -/
def parseNatSegment (cs : List Char) : Option Nat :=
  if cs.isEmpty then none
  else if cs.all isDigitChar then
    some (cs.foldl (fun acc c => acc * 10 + (c.toNat - 48)) 0)
  else none

/-- `QVersionNumber::fromString`: leading dot-separated numeric segments
(parsing stops at the first non-numeric segment). -/
def collectSegments : List (List Char) → VersionNumber
  | [] => []
  | p :: ps =>
    match parseNatSegment p with
    | some n => (n : Int) :: collectSegments ps
    | none => []

/-- `QVersionNumber::fromString` on a whole string. -/
def versionFromString (s : String) : VersionNumber :=
  collectSegments (splitOnDot s.data)

/-- The `ComponentLoader::LoadFlag` enumeration. -/
inductive LoadFlag where
  | loaded
  | incompatibleQtVersion
  | nameClash
  | missingDependency
  | disabled
  | incompatibleVersion
  | unableToLoad
  | missingInterface
deriving DecidableEq

/-- The `ComponentLoader::LoadFlags` bit set, one boolean per `LoadFlag` bit.
`Unloaded` is the state with every bit clear. -/
structure LoadFlags where
  loaded : Bool := false
  incompatibleQtVersion : Bool := false
  nameClash : Bool := false
  missingDependency : Bool := false
  disabled : Bool := false
  incompatibleVersion : Bool := false
  unableToLoad : Bool := false
  missingInterface : Bool := false
deriving DecidableEq

/-- The `Unloaded` flags value (no bit set). -/
def LoadFlags.unloaded : LoadFlags := {}

/-- `QFlags::setFlag` / `operator|=` with a single flag. -/
def LoadFlags.setFlag (f : LoadFlags) : LoadFlag → LoadFlags
  | LoadFlag.loaded => { f with loaded := true }
  | LoadFlag.incompatibleQtVersion => { f with incompatibleQtVersion := true }
  | LoadFlag.nameClash => { f with nameClash := true }
  | LoadFlag.missingDependency => { f with missingDependency := true }
  | LoadFlag.disabled => { f with disabled := true }
  | LoadFlag.incompatibleVersion => { f with incompatibleVersion := true }
  | LoadFlag.unableToLoad => { f with unableToLoad := true }
  | LoadFlag.missingInterface => { f with missingInterface := true }

/-- The truth-value test `if (component->m_loadFlags)`: some bit is set. -/
def LoadFlags.any (f : LoadFlags) : Bool :=
  f.loaded || f.incompatibleQtVersion || f.nameClash || f.missingDependency ||
    f.disabled || f.incompatibleVersion || f.unableToLoad || f.missingInterface

/-- Some failure bit (any bit other than `Loaded`) is set. -/
def LoadFlags.anyFailure (f : LoadFlags) : Bool :=
  f.incompatibleQtVersion || f.nameClash || f.missingDependency ||
    f.disabled || f.incompatibleVersion || f.unableToLoad || f.missingInterface

/-- The `Component` record (`Component.h` / `Component.cpp`).  `m_dependencies`
holds store indices, modelling the `QList<Component *>` of pointers. -/
structure Component where
  m_name : String := ""
  m_filename : String := ""
  m_metadata : JsonObject := []
  m_dependencies : List Nat := []
  m_dependencyVersions : List (Nat × VersionNumber) := []
  m_missingDependencies : List String := []
  m_loadFlags : LoadFlags := {}
  m_isLoaded : Bool := false

instance : Inhabited Component := ⟨{}⟩

/-- `QMap<Component *, QVersionNumber>::operator[]` assignment:
replace the entry for the key, or append it. -/
def mapInsertVersion (k : Nat) (v : VersionNumber) :
    List (Nat × VersionNumber) → List (Nat × VersionNumber)
  | [] => [(k, v)]
  | (k', v') :: rest =>
    if k' = k then (k, v) :: rest else (k', v') :: mapInsertVersion k v rest

/-- `QMap<Component *, QVersionNumber>::operator[]` lookup, with the
default-constructed (null) version for a missing key. -/
def mapLookupVersion : List (Nat × VersionNumber) → Nat → VersionNumber
  | [], _ => []
  | (k, v) :: rest, key => if k = key then v else mapLookupVersion rest key

/-- `Component::addDependency`. -/
def Component.addDependency (c : Component) (dependency : Nat)
    (versionNumber : VersionNumber) : Component :=
  { c with
      m_dependencyVersions := mapInsertVersion dependency versionNumber c.m_dependencyVersions,
      m_dependencies := c.m_dependencies ++ [dependency] }

/-- `Component::version`: parse `metadata["MetaData"]["Version"]`. -/
def Component.version (c : Component) : VersionNumber :=
  versionFromString ((JsonObject.value (JsonObject.value c.m_metadata "MetaData").toObject
    "Version").toString)

/-- `Component::canBeDisabled`: the metadata `CanBeDisabled` entry, defaulting
to `true` when the key is absent. -/
def Component.canBeDisabled (c : Component) : Bool :=
  let componentMetadata := (JsonObject.value c.m_metadata "MetaData").toObject
  if componentMetadata.containsKey "CanBeDisabled" then
    (JsonObject.value componentMetadata "CanBeDisabled").toBool
  else
    true

/-- The body of the `validateDependencies` loop (`Component.cpp` lines
171-179): one resolved dependency checked against the current store. -/
def validateStep (store : Nat → Component) (comp : Component) (dependency : Nat) : Component :=
  if !(store dependency).m_isLoaded then
    { comp with m_loadFlags := comp.m_loadFlags.setFlag LoadFlag.missingDependency }
  else if versionLtB (Component.version (store dependency))
      (mapLookupVersion comp.m_dependencyVersions dependency) then
    { comp with m_loadFlags := comp.m_loadFlags.setFlag LoadFlag.incompatibleVersion }
  else comp

/-- `Component::validateDependencies`: for each resolved dependency, set
`MissingDependency` if it is not loaded, or `IncompatibleVersion` if it is
loaded with a version below the recorded minimum.  `store` supplies the
records the dependency pointers refer to. -/
def Component.validateDependencies (store : Nat → Component) (c : Component) : Component :=
  c.m_dependencies.foldl (validateStep store) c

/-- The loader's state: the component records (`store`), the
`m_componentSearchList` map and the `m_loadOrder` list. -/
structure LoaderState where
  store : Nat → Component
  searchList : List (String × Nat)
  loadOrder : List Nat

/-- Pointwise update of the record store (mutation of one `Component *`). -/
def updateStore (store : Nat → Component) (cid : Nat) (c : Component) : Nat → Component :=
  fun i => if i = cid then c else store i

/-- `QMap<QString, _>::contains`. -/
def mapContains (m : List (String × Nat)) (key : String) : Bool :=
  m.any (fun e => e.1 = key)

/-- `QMap<QString, _>::operator[]` lookup (the stored id; 0 as the
default-constructed value for a missing key, which the code never uses
because lookups are guarded by `contains`). -/
def mapLookup : List (String × Nat) → String → Nat
  | [], _ => 0
  | (k, v) :: rest, key => if k = key then v else mapLookup rest key

/-- `QString::operator<` on character lists: lexicographic by character code. -/
def charListLt : List Char → List Char → Bool
  | [], [] => false
  | [], _ :: _ => true
  | _ :: _, [] => false
  | a :: as, b :: bs =>
    if a.toNat < b.toNat then true
    else if b.toNat < a.toNat then false
    else charListLt as bs

/-- `QString::operator<`. -/
def strLt (a b : String) : Bool := charListLt a.data b.data

/-- `QMap<QString, _>::operator[]` assignment: sorted insert replacing the
value of an existing key, matching `QMap` iteration order. -/
def mapInsert (k : String) (v : Nat) : List (String × Nat) → List (String × Nat)
  | [] => [(k, v)]
  | (k', v') :: rest =>
    if strLt k k' then (k, v) :: (k', v') :: rest
    else if k = k' then (k, v) :: rest
    else (k', v') :: mapInsert k v rest

/-- A candidate module found during a directory scan, as the discovery
adapter hands it to `addComponents`: the file name together with the
metadata object read by `QPluginLoader::metaData()`. -/
structure PluginFile where
  filename : String
  metaData : JsonObject

/-- `ComponentLoader.cpp` lines 41-46: bit layout of the Qt version word. -/
def QtMajorBitMask : Nat := 0xFFFF0000

/-- Shift for the major portion of the Qt version word. -/
def QtMajorBitShift : Nat := 16

/-- `addComponents` lines 149-153: flag the new component with `NameClash`
when its name is already registered, then store it in the search map
(overwriting any previous holder of the name). -/
def registerComponent (st : LoaderState) (nextId : Nat) (component : Component)
    (componentName : String) : LoaderState × Nat :=
  let component :=
    if mapContains st.searchList componentName then
      { component with m_loadFlags := component.m_loadFlags.setFlag LoadFlag.nameClash }
    else component
  ({ st with
      store := updateStore st.store nextId component,
      searchList := mapInsert componentName nextId st.searchList },
   nextId + 1)

/-- One iteration of the `addComponents` discovery loop (lines 86-156) for a
candidate that passed `QLibrary::isLibrary`: metadata checks, the debug-build
filter, the Qt-major compatibility flag and registration.  `nextId` models the
allocation of the new `Component *`. -/
def addComponentStep (applicationDebugBuild : Bool) (applicationQtMajor : Int)
    (acc : LoaderState × Nat) (plugin : PluginFile) : LoaderState × Nat :=
  let st := acc.1
  let nextId := acc.2
  let metaDataObject := plugin.metaData
  if metaDataObject.isEmpty then acc
  else
    let componentMetadata := JsonObject.value metaDataObject "MetaData"
    let debugBuild := JsonObject.value metaDataObject "debug"
    let qtVersion := JsonObject.value metaDataObject "version"
    if debugBuild.isNull || qtVersion.isNull || componentMetadata.isNull then acc
    else if !(debugBuild.eqBool applicationDebugBuild) then acc
    else
      let componentName := JsonObject.value componentMetadata.toObject "Name"
      if componentName.isNull then acc
      else
        let componentQtMajor : Int :=
          ((qtVersion.toUInt &&& QtMajorBitMask) >>> QtMajorBitShift : Nat)
        let component : Component :=
          { m_name := componentName.toString,
            m_filename := plugin.filename,
            m_metadata := metaDataObject }
        let component :=
          if componentQtMajor ≠ applicationQtMajor then
            { component with
                m_loadFlags := component.m_loadFlags.setFlag LoadFlag.incompatibleQtVersion }
          else component
        registerComponent st nextId component componentName.toString

/-- `ComponentLoader::addComponents` over a list of discovered candidates. -/
def addComponents (applicationDebugBuild : Bool) (applicationQtMajor : Int)
    (acc : LoaderState × Nat) (plugins : List PluginFile) : LoaderState × Nat :=
  plugins.foldl (addComponentStep applicationDebugBuild applicationQtMajor) acc

/-- A fresh `ComponentLoader`: empty search map and load order. -/
def initState : LoaderState :=
  { store := fun _ => {}, searchList := [], loadOrder := [] }

/-- `component->metadata().value("MetaData").toObject().value("Dependencies").toArray()`
(`loadComponents` lines 178-180). -/
def metadataDependencies (component : Component) : List JsonValue :=
  (JsonObject.value (JsonObject.value component.m_metadata "MetaData").toObject
    "Dependencies").toArray

/-- `dependency.toObject().value("Name").toString()`. -/
def dependencyEntryName (dependency : JsonValue) : String :=
  (JsonObject.value dependency.toObject "Name").toString

/-- `dependency.toObject().value("Version").toString()`. -/
def dependencyEntryVersion (dependency : JsonValue) : String :=
  (JsonObject.value dependency.toObject "Version").toString

/-- The body of the dependency loop in `loadComponents` (lines 182-194):
resolve one declared dependency of `component` against the search map. -/
def walkDependency (search : List (String × Nat)) (component : Component)
    (dependency : JsonValue) : Component :=
  let dependencyName := dependencyEntryName dependency
  let dependencyVersion := dependencyEntryVersion dependency
  if mapContains search dependencyName then
    component.addDependency (mapLookup search dependencyName)
      (versionFromString dependencyVersion)
  else
    { component with
        m_missingDependencies := component.m_missingDependencies ++ [dependencyName],
        m_loadFlags := component.m_loadFlags.setFlag LoadFlag.missingDependency }

/-- One iteration of the search-map walk in `loadComponents` (lines 169-199):
skip flagged records, resolve declared dependencies, and collect the still
unflagged record into `componentLoadList`. -/
def processEntry (search : List (String × Nat)) (acc : (Nat → Component) × List Nat)
    (entry : String × Nat) : (Nat → Component) × List Nat :=
  let store := acc.1
  let componentLoadList := acc.2
  let component := store entry.2
  if component.m_loadFlags.any then acc
  else
    let component := (metadataDependencies component).foldl (walkDependency search) component
    let store := updateStore store entry.2 component
    if !component.m_loadFlags.any then (store, componentLoadList ++ [entry.2])
    else (store, componentLoadList)

/-- Step 1 of `loadComponents`: the dependency walk over the search map,
producing the updated store and `componentLoadList`. -/
def findDependencies (st : LoaderState) : LoaderState × List Nat :=
  let out := st.searchList.foldl (processEntry st.searchList) (st.store, [])
  ({ st with store := out.1 }, out.2)

/-- The dependency loop inside `resolve` (lines 318-326): for every
dependency, skip it when already resolved or already in progress, otherwise
recurse into it via `step` (the recursive `resolve` at the next depth). -/
def resolveDeps (step : Nat → List Nat → List Nat → Option (List Nat × List Nat)) :
    List Nat → List Nat → List Nat → Option (List Nat × List Nat)
  | [], resolvedList, processedList => some (resolvedList, processedList)
  | dependency :: rest, resolvedList, processedList =>
    if resolvedList.contains dependency then
      resolveDeps step rest resolvedList processedList
    else if processedList.contains dependency then
      resolveDeps step rest resolvedList processedList
    else
      match step dependency resolvedList processedList with
      | none => none
      | some (r, p) => resolveDeps step rest r p

/-- The recursive `ComponentLoader::resolve` (lines 311-329): append the
component to `processedList`, recurse into unresolved dependencies that are
not in progress, then post-append the component to `resolvedList`.  The C++
recursion carries no explicit bound; `fuel` bounds the recursion depth, and
`none` marks fuel exhaustion (shown unreachable for sufficient fuel). -/
def resolveAux (deps : Nat → List Nat) : Nat → Nat → List Nat → List Nat →
    Option (List Nat × List Nat)
  | 0, _, _, _ => none
  | fuel + 1, component, resolvedList, processedList =>
    match resolveDeps (resolveAux deps fuel) (deps component) resolvedList
        (processedList ++ [component]) with
    | none => none
    | some (r, p) => some (r ++ [component], p)

/-- The merge of one per-root `dependencyResolveList` into the global
`resolvedLoadList` (lines 211-215). -/
def mergeResolved (resolvedLoadList dependencyResolveList : List Nat) : List Nat :=
  dependencyResolveList.foldl
    (fun acc dependency => if acc.contains dependency then acc else acc ++ [dependency])
    resolvedLoadList

/-- One iteration of the resolution loop (lines 203-216): skip roots already
in the global list, otherwise run `resolve` with a fresh per-root state and
merge its result. -/
def resolveStep (deps : Nat → List Nat) (fuel : Nat) (acc : Option (List Nat))
    (current : Nat) : Option (List Nat) :=
  match acc with
  | none => none
  | some resolvedLoadList =>
    if resolvedLoadList.contains current then some resolvedLoadList
    else
      match resolveAux deps fuel current [] [] with
      | none => none
      | some (dependencyResolveList, _) =>
        some (mergeResolved resolvedLoadList dependencyResolveList)

/-- Step 2 of `loadComponents` (lines 203-217): run `resolve` from each root
of `componentLoadList` with a fresh per-root state and merge the per-root
post-order lists into the global `resolvedLoadList`. -/
def resolveLoadOrder (deps : Nat → List Nat) (fuel : Nat)
    (componentLoadList : List Nat) : Option (List Nat) :=
  componentLoadList.foldl (resolveStep deps fuel) (some [])

/-- The external collaborators of the load loop: the injected `loadFunction`
predicate, `QPluginLoader::load` success and the
`qobject_cast<IComponent *>` interface check, per component record. -/
structure Backend where
  loadFunction : Option (Nat → Bool)
  pluginLoads : Nat → Bool
  hasInterface : Nat → Bool

/-- One iteration of the load loop in `loadComponents` (lines 221-277). -/
def loadComponentStep (backend : Backend) (acc : (Nat → Component) × List Nat)
    (cid : Nat) : (Nat → Component) × List Nat :=
  let store := acc.1
  let loadOrder := acc.2
  let component := store cid
  if component.m_loadFlags.any then acc
  else
    let component := Component.validateDependencies store component
    let store := updateStore store cid component
    if component.m_loadFlags.any then (store, loadOrder)
    else
      let rejected :=
        match backend.loadFunction with
        | some f => !(f cid)
        | none => false
      if rejected then
        (updateStore store cid
          { component with m_loadFlags := component.m_loadFlags.setFlag LoadFlag.disabled },
         loadOrder)
      else if !(backend.pluginLoads cid) then
        (updateStore store cid
          { component with m_loadFlags := component.m_loadFlags.setFlag LoadFlag.unableToLoad },
         loadOrder)
      else if !(backend.hasInterface cid) then
        (updateStore store cid
          { component with m_loadFlags := component.m_loadFlags.setFlag LoadFlag.missingInterface },
         loadOrder)
      else
        (updateStore store cid
          { component with
              m_loadFlags := component.m_loadFlags.setFlag LoadFlag.loaded,
              m_isLoaded := true },
         loadOrder ++ [cid])

/-- Lifecycle callbacks observed during a session. -/
inductive Ev where
  | initialise (cid : Nat)
  | initialisationFinished (cid : Nat)
  | finalise (cid : Nat)
deriving DecidableEq

/-- `ComponentLoader::loadComponents` (lines 159-297): the dependency walk,
the resolution of the global load order, the load loop, and the
`initialiseEvent` / `initialisationFinishedEvent` dispatch over `m_loadOrder`.
`none` only when the resolver's depth bound is exhausted (never for the bound
chosen here, see the termination theorem). -/
def LoaderState.loadComponents (backend : Backend) (st : LoaderState) :
    Option (LoaderState × List Ev) :=
  let fd := findDependencies st
  let st1 := fd.1
  let componentLoadList := fd.2
  match resolveLoadOrder (fun cid => (st1.store cid).m_dependencies)
      (st1.searchList.length + 1) componentLoadList with
  | none => none
  | some resolvedLoadList =>
    let out := resolvedLoadList.foldl (loadComponentStep backend) (st1.store, st1.loadOrder)
    let st2 : LoaderState := { st1 with store := out.1, loadOrder := out.2 }
    some (st2,
      st2.loadOrder.map Ev.initialise ++
        st2.loadOrder.reverse.map Ev.initialisationFinished)

/-- `ComponentLoader::unloadComponents` (lines 331-354): call `finaliseEvent`
in reverse load order on every entry whose interface cast succeeds, then clear
`m_loadOrder`.  The component records themselves are not touched. -/
def LoaderState.unloadComponents (hasInterface : Nat → Bool) (st : LoaderState) :
    LoaderState × List Ev :=
  ({ st with loadOrder := [] },
   (st.loadOrder.reverse.filter hasInterface).map Ev.finalise)

/-- `d` occurs strictly before `c` in the list `L`. -/
def beforeIn (L : List Nat) (d c : Nat) : Prop :=
  ∃ i j, i < j ∧ L.get? i = some d ∧ L.get? j = some c

/-- Reachability along resolved dependency edges. -/
inductive Reaches (deps : Nat → List Nat) : Nat → Nat → Prop where
  | refl (c : Nat) : Reaches deps c c
  | step {a b c : Nat} : b ∈ deps a → Reaches deps b c → Reaches deps a c

/-- Every record of `L` appears strictly after each of its dependencies. -/
def resolvedGood (deps : Nat → List Nat) (L : List Nat) : Prop :=
  ∀ c ∈ L, ∀ d ∈ deps c, beforeIn L d c

/-- Invariant of the load loop: loaded records carry the `Loaded` bit and no
failure bit, and `m_loadOrder` holds exactly the loaded records, all of which
passed the interface check. -/
def LoadInv (backend : Backend) (store : Nat → Component) (lo : List Nat) : Prop :=
  (∀ cid, (store cid).m_isLoaded = true →
    (store cid).m_loadFlags.any = true ∧ (store cid).m_loadFlags.anyFailure = false) ∧
  (∀ cid ∈ lo, (store cid).m_isLoaded = true ∧ backend.hasInterface cid = true) ∧
  (∀ cid, (store cid).m_isLoaded = true → cid ∈ lo)

/-- Pending nodes (processed but not resolved) are exactly preserved, and
every newly resolved node was previously unprocessed. -/
def PendSpec (r p r' p' : List Nat) : Prop :=
  (∀ x, x ∈ p' → x ∉ r' → (x ∈ p ∧ x ∉ r)) ∧ (∀ x ∈ r', x ∈ r ∨ x ∉ p)

/-- Invariant carried through the recursion: resolved nodes are processed,
and every dependency of a resolved node is processed. -/
def ClosedInv (deps : Nat → List Nat) (r p : List Nat) : Prop :=
  (∀ x ∈ r, x ∈ p) ∧ (∀ y ∈ r, ∀ z ∈ deps y, z ∈ p)


/-! ### Concrete sessions used to exercise the definitions -/

/-- Plugin metadata of the form the loader reads: component name, Qt build
version word, and declared dependencies with minimum versions. -/
def mkMeta (nm : String) (qt : Nat) (deps : List (String × String)) : JsonObject :=
  [("MetaData", JsonValue.obj
      [("Name", JsonValue.str nm), ("Version", JsonValue.str "1.0.0"),
       ("Dependencies", JsonValue.arr (deps.map (fun d =>
          JsonValue.obj [("Name", JsonValue.str d.1), ("Version", JsonValue.str d.2)])))]),
   ("debug", JsonValue.bool false), ("version", JsonValue.num (Int.ofNat qt))]

/-- The declared dependency names of a record, as step 1 parses them. -/
def parsedDepNames (c : Component) : List String :=
  (metadataDependencies c).map dependencyEntryName

/-- A backend whose physical loads and interface casts always succeed and
with no selection predicate installed. -/
def wBackend : Backend :=
  { loadFunction := none, pluginLoads := fun _ => true, hasInterface := fun _ => true }

/-- Two discovered components: `a` with no dependencies, `b` depending on `a`. -/
def sABStore : Nat → Component := fun cid =>
  if cid = 0 then
    { m_name := "a", m_filename := "liba", m_metadata := mkMeta "a" 331522 [] }
  else if cid = 1 then
    { m_name := "b", m_filename := "libb", m_metadata := mkMeta "b" 331522 [("a", "1.0")] }
  else {}

/-- Discovery state of the `a`, `b` session. -/
def sAB : LoaderState := { store := sABStore, searchList := [("a", 0), ("b", 1)], loadOrder := [] }

/-- Result of `loadComponents` on the `a`, `b` session. -/
def sABOut : LoaderState × List Ev :=
  (LoaderState.loadComponents wBackend sAB).getD (initState, [])

/-- Two discovered components forming a dependency cycle: `x` requires `y`
and `y` requires `x`. -/
def sCycStore : Nat → Component := fun cid =>
  if cid = 0 then
    { m_name := "x", m_filename := "libx", m_metadata := mkMeta "x" 331522 [("y", "1.0")] }
  else if cid = 1 then
    { m_name := "y", m_filename := "liby", m_metadata := mkMeta "y" 331522 [("x", "1.0")] }
  else {}

/-- Discovery state of the cyclic session. -/
def sCyc : LoaderState := { store := sCycStore, searchList := [("x", 0), ("y", 1)], loadOrder := [] }

/-- A session where `a` depends on `b` and `b` was flagged during discovery
(incompatible Qt version). -/
def sFlagStore : Nat → Component := fun cid =>
  if cid = 0 then
    { m_name := "a", m_filename := "liba", m_metadata := mkMeta "a" 331522 [("b", "1.0")] }
  else if cid = 1 then
    { m_name := "b", m_filename := "libb", m_metadata := mkMeta "b" 393216 [],
      m_loadFlags := { incompatibleQtVersion := true } }
  else {}

/-- Discovery state of the flagged-dependency session. -/
def sFlag : LoaderState :=
  { store := sFlagStore, searchList := [("a", 0), ("b", 1)], loadOrder := [] }

/-- Result of `loadComponents` on the flagged-dependency session. -/
def sFlagOut : LoaderState × List Ev :=
  (LoaderState.loadComponents wBackend sFlag).getD (initState, [])

/-- A single unflagged component declaring a dependency on the undiscovered
name `zzz`. -/
def sMissStore : Nat → Component := fun cid =>
  if cid = 0 then
    { m_name := "a", m_filename := "liba", m_metadata := mkMeta "a" 331522 [("zzz", "1.0")] }
  else {}

/-- Discovery state of the missing-dependency session. -/
def sMiss : LoaderState := { store := sMissStore, searchList := [("a", 0)], loadOrder := [] }

/-- Result of `loadComponents` on the missing-dependency session. -/
def sMissOut : LoaderState × List Ev :=
  (LoaderState.loadComponents wBackend sMiss).getD (initState, [])

/-- The same missing-dependency component, but already carrying the
`IncompatibleQtVersion` flag from discovery. -/
def sMissFlaggedStore : Nat → Component := fun cid =>
  if cid = 0 then
    { m_name := "a", m_filename := "liba", m_metadata := mkMeta "a" 393216 [("zzz", "1.0")],
      m_loadFlags := { incompatibleQtVersion := true } }
  else {}

/-- Discovery state of the flagged missing-dependency session. -/
def sMissFlagged : LoaderState :=
  { store := sMissFlaggedStore, searchList := [("a", 0)], loadOrder := [] }

/-- Result of `loadComponents` on the flagged missing-dependency session. -/
def sMissFlaggedOut : LoaderState × List Ev :=
  (LoaderState.loadComponents wBackend sMissFlagged).getD (initState, [])

/-- Three discovered plugin files: two named `a` (a name clash) and a `b`
that depends on `a`. -/
def dupPlugins : List PluginFile :=
  [ { filename := "liba1", metaData := mkMeta "a" 331522 [] },
    { filename := "liba2", metaData := mkMeta "a" 331522 [] },
    { filename := "libb", metaData := mkMeta "b" 331522 [("a", "1.0")] } ]

/-- State after discovering `dupPlugins` (application Qt major 5, release). -/
def sDup : LoaderState := (addComponents false 5 (initState, 0) dupPlugins).1

/-- A loader state whose search map already holds the name `a`. -/
def sReg : LoaderState :=
  { store := fun _ => {}, searchList := [("a", 0)], loadOrder := [] }

/-- Dependency map of the two-node acyclic graph 1 → 0. -/
def wdeps : Nat → List Nat := fun c => if c = 1 then [0] else []

/-- A store with one loaded component of version 1.0.0. -/
def vStore : Nat → Component := fun cid =>
  if cid = 0 then
    { m_name := "a", m_metadata := mkMeta "a" 331522 [], m_isLoaded := true,
      m_loadFlags := { loaded := true } }
  else {}

/-- A record depending on component 0 with minimum version 1.0. -/
def vComp : Component :=
  { m_name := "b", m_dependencies := [0], m_dependencyVersions := [(0, [1, 0])] }

/-- A component whose metadata has no `CanBeDisabled` key. -/
def cbdCompNone : Component :=
  { m_metadata := [("MetaData", JsonValue.obj [("Name", JsonValue.str "a")])] }

/-- A component whose metadata sets `CanBeDisabled` to `false`. -/
def cbdCompFalse : Component :=
  { m_metadata := [("MetaData", JsonValue.obj
      [("Name", JsonValue.str "a"), ("CanBeDisabled", JsonValue.bool false)])] }

/-! ### Helper lemmas about `beforeIn` -/

theorem beforeIn_append_left {L M : List Nat} {d c : Nat} (h : beforeIn L d c) :
    beforeIn (L ++ M) d c := by
  obtain ⟨i, j, hij, hi, hj⟩ := h
  have hjl : j < L.length := (List.get?_eq_some.mp hj).1
  have hil : i < L.length := lt_trans hij hjl
  exact ⟨i, j, hij, by rwa [List.get?_append hil], by rwa [List.get?_append hjl]⟩

theorem beforeIn_concat_of_mem {L : List Nat} {d c : Nat} (h : d ∈ L) :
    beforeIn (L ++ [c]) d c := by
  obtain ⟨i, hi⟩ := List.get?_of_mem h
  have hil : i < L.length := (List.get?_eq_some.mp hi).1
  exact ⟨i, L.length, hil, by rwa [List.get?_append hil], List.get?_concat_length L c⟩

theorem beforeIn_mem_left {L : List Nat} {d c : Nat} (h : beforeIn L d c) : d ∈ L := by
  obtain ⟨i, _, _, hi, _⟩ := h
  exact List.get?_mem hi

theorem beforeIn_mem_right {L : List Nat} {d c : Nat} (h : beforeIn L d c) : c ∈ L := by
  obtain ⟨_, j, _, _, hj⟩ := h
  exact List.get?_mem hj

theorem resolvedGood_append {deps : Nat → List Nat} {L : List Nat} {c : Nat}
    (hL : resolvedGood deps L) (hc : ∀ d ∈ deps c, d ∈ L) :
    resolvedGood deps (L ++ [c]) := by
  intro x hx d hd
  rcases List.mem_append.mp hx with hx | hx
  · exact beforeIn_append_left (hL x hx d hd)
  · have hxc : x = c := by simpa using hx
    subst hxc
    exact beforeIn_concat_of_mem (hc d hd)

/-! ### Structural lemmas about `resolveDeps` and `resolveAux`

The recursion of `resolve` only ever appends to `resolvedList` and
`processedList`, never resolves a node that was pending (in progress) at the
start of a call, and resolves every node it adds to `processedList`. -/

theorem resolveDeps_grow
    {step : Nat → List Nat → List Nat → Option (List Nat × List Nat)}
    (hstep : ∀ c r p r' p', step c r p = some (r', p') →
      (∃ t, r' = r ++ t) ∧ (∃ t, p' = p ++ t)) :
    ∀ ds r p r' p', resolveDeps step ds r p = some (r', p') →
      (∃ t, r' = r ++ t) ∧ (∃ t, p' = p ++ t) := by
  intro ds
  induction ds with
  | nil =>
    intro r p r' p' h
    simp only [resolveDeps] at h
    obtain ⟨h1, h2⟩ := Prod.mk.injEq .. ▸ (Option.some.injEq .. ▸ h)
    exact ⟨⟨[], by simp [h1.symm]⟩, ⟨[], by simp [h2.symm]⟩⟩
  | cons d rest ih =>
    intro r p r' p' h
    simp only [resolveDeps] at h
    by_cases hr : r.contains d
    · simp only [hr, if_true] at h
      exact ih r p r' p' h
    · simp only [hr, if_false] at h
      by_cases hp : p.contains d
      · simp only [hp, if_true] at h
        exact ih r p r' p' h
      · simp only [hp, if_false] at h
        cases hs : step d r p with
        | none => rw [hs] at h; exact absurd h (by simp)
        | some rp =>
          rw [hs] at h
          obtain ⟨r1, p1⟩ := rp
          obtain ⟨⟨t1, ht1⟩, ⟨t2, ht2⟩⟩ := hstep d r p r1 p1 hs
          obtain ⟨⟨t3, ht3⟩, ⟨t4, ht4⟩⟩ := ih r1 p1 r' p' h
          exact ⟨⟨t1 ++ t3, by rw [ht3, ht1, List.append_assoc]⟩,
                 ⟨t2 ++ t4, by rw [ht4, ht2, List.append_assoc]⟩⟩

theorem contains_iff_mem {l : List Nat} {a : Nat} : l.contains a = true ↔ a ∈ l :=
  List.elem_iff

theorem contains_false_not_mem {l : List Nat} {a : Nat} (h : l.contains a = false) :
    a ∉ l := by
  intro hm
  rw [contains_iff_mem.mpr hm] at h
  exact absurd h (by simp)

theorem resolveAux_grow (deps : Nat → List Nat) :
    ∀ fuel c r p r' p', resolveAux deps fuel c r p = some (r', p') →
      (∃ t, r' = r ++ t) ∧ (∃ t, p' = p ++ t) := by
  intro fuel
  induction fuel with
  | zero => intro c r p r' p' h; exact absurd h (by simp [resolveAux])
  | succ fuel ih =>
    intro c r p r' p' h
    simp only [resolveAux] at h
    cases hs : resolveDeps (resolveAux deps fuel) (deps c) r (p ++ [c]) with
    | none => rw [hs] at h; exact absurd h (by simp)
    | some rp =>
      rw [hs] at h
      obtain ⟨r1, p1⟩ := rp
      obtain ⟨h1, h2⟩ := Prod.mk.injEq .. ▸ (Option.some.injEq .. ▸ h)
      obtain ⟨⟨t1, ht1⟩, ⟨t2, ht2⟩⟩ := resolveDeps_grow (fun c r p r' p' h => ih c r p r' p' h)
        (deps c) r (p ++ [c]) r1 p1 hs
      refine ⟨⟨t1 ++ [c], ?_⟩, ⟨[c] ++ t2, ?_⟩⟩
      · rw [← h1, ht1, List.append_assoc]
      · rw [← h2, ht2, List.append_assoc]

theorem resolveDeps_pend
    {step : Nat → List Nat → List Nat → Option (List Nat × List Nat)}
    (hstepGrow : ∀ c r p r' p', step c r p = some (r', p') →
      (∃ t, r' = r ++ t) ∧ (∃ t, p' = p ++ t))
    (hstepPend : ∀ c r p r' p', step c r p = some (r', p') → c ∉ p →
      PendSpec r p r' p') :
    ∀ ds r p r' p', resolveDeps step ds r p = some (r', p') →
      PendSpec r p r' p' := by
  intro ds
  induction ds with
  | nil =>
    intro r p r' p' h
    simp only [resolveDeps, Option.some.injEq, Prod.mk.injEq] at h
    obtain ⟨h1, h2⟩ := h
    subst h1; subst h2
    exact ⟨fun x hx hr => ⟨hx, hr⟩, fun x hx => Or.inl hx⟩
  | cons d rest ih =>
    intro r p r' p' h
    simp only [resolveDeps] at h
    by_cases hr : r.contains d
    · simp only [hr, if_true] at h
      exact ih r p r' p' h
    · simp only [hr, if_false, Bool.false_eq_true] at h
      by_cases hp : p.contains d
      · simp only [hp, if_true] at h
        exact ih r p r' p' h
      · simp only [hp, if_false, Bool.false_eq_true] at h
        cases hs : step d r p with
        | none => rw [hs] at h; exact absurd h (by simp)
        | some rp =>
          rw [hs] at h
          obtain ⟨r1, p1⟩ := rp
          have hdp : d ∉ p := contains_false_not_mem (Bool.not_eq_true _ ▸ hp)
          obtain ⟨hA, hB⟩ := hstepPend d r p r1 p1 hs hdp
          obtain ⟨hA', hB'⟩ := ih r1 p1 r' p' h
          obtain ⟨⟨t1, ht1⟩, ⟨t2, ht2⟩⟩ := hstepGrow d r p r1 p1 hs
          refine ⟨fun x hx hxr => ?_, fun x hx => ?_⟩
          · obtain ⟨hx1, hx2⟩ := hA' x hx hxr
            exact hA x hx1 hx2
          · rcases hB' x hx with hx1 | hx1
            · exact hB x hx1
            · right
              intro hxp
              exact hx1 (ht2 ▸ List.mem_append_left t2 hxp)

theorem resolveAux_pend (deps : Nat → List Nat) :
    ∀ fuel c r p r' p', resolveAux deps fuel c r p = some (r', p') → c ∉ p →
      PendSpec r p r' p' := by
  intro fuel
  induction fuel with
  | zero => intro c r p r' p' h; exact absurd h (by simp [resolveAux])
  | succ fuel ih =>
    intro c r p r' p' h hc
    simp only [resolveAux] at h
    cases hs : resolveDeps (resolveAux deps fuel) (deps c) r (p ++ [c]) with
    | none => rw [hs] at h; exact absurd h (by simp)
    | some rp =>
      rw [hs] at h
      obtain ⟨r1, p1⟩ := rp
      simp only [Option.some.injEq, Prod.mk.injEq] at h
      obtain ⟨h1, h2⟩ := h
      subst h1; subst h2
      obtain ⟨hA, hB⟩ := resolveDeps_pend (resolveAux_grow deps fuel) (ih) (deps c) r
        (p ++ [c]) r1 p1 hs
      constructor
      · intro x hx hxr
        have hxr1 : x ∉ r1 := fun hm => hxr (List.mem_append_left _ hm)
        have hxc : x ≠ c := fun he => hxr (he ▸ List.mem_append_right _ (by simp))
        obtain ⟨hx1, hx2⟩ := hA x hx hxr1
        rcases List.mem_append.mp hx1 with hx1' | hx1'
        · exact ⟨hx1', hx2⟩
        · exact absurd (by simpa using hx1') hxc
      · intro x hx
        rcases List.mem_append.mp hx with hx' | hx'
        · rcases hB x hx' with h1 | h1
          · exact Or.inl h1
          · exact Or.inr (fun hm => h1 (List.mem_append_left _ hm))
        · have hxc : x = c := by simpa using hx'
          exact Or.inr (hxc ▸ hc)

theorem resolveDeps_closed (deps : Nat → List Nat)
    {step : Nat → List Nat → List Nat → Option (List Nat × List Nat)}
    (hstepGrow : ∀ c r p r' p', step c r p = some (r', p') →
      (∃ t, r' = r ++ t) ∧ (∃ t, p' = p ++ t))
    (hstepClosed : ∀ c r p r' p', step c r p = some (r', p') →
      ClosedInv deps r p → ClosedInv deps r' p' ∧ c ∈ p') :
    ∀ ds r p r' p', resolveDeps step ds r p = some (r', p') →
      ClosedInv deps r p → ClosedInv deps r' p' ∧ ∀ d ∈ ds, d ∈ p' := by
  intro ds
  induction ds with
  | nil =>
    intro r p r' p' h hinv
    simp only [resolveDeps, Option.some.injEq, Prod.mk.injEq] at h
    obtain ⟨h1, h2⟩ := h
    subst h1; subst h2
    exact ⟨hinv, by simp⟩
  | cons d rest ih =>
    intro r p r' p' h hinv
    simp only [resolveDeps] at h
    by_cases hr : r.contains d
    · simp only [hr, if_true] at h
      obtain ⟨hinv', hrest⟩ := ih r p r' p' h hinv
      obtain ⟨_, ⟨t2, ht2⟩⟩ := resolveDeps_grow hstepGrow rest r p r' p' h
      refine ⟨hinv', fun x hx => ?_⟩
      rcases List.mem_cons.mp hx with hx | hx
      · subst hx
        have : x ∈ p := hinv.1 x (contains_iff_mem.mp hr)
        exact ht2 ▸ List.mem_append_left t2 this
      · exact hrest x hx
    · simp only [hr, if_false, Bool.false_eq_true] at h
      by_cases hp : p.contains d
      · simp only [hp, if_true] at h
        obtain ⟨hinv', hrest⟩ := ih r p r' p' h hinv
        obtain ⟨_, ⟨t2, ht2⟩⟩ := resolveDeps_grow hstepGrow rest r p r' p' h
        refine ⟨hinv', fun x hx => ?_⟩
        rcases List.mem_cons.mp hx with hx | hx
        · subst hx
          exact ht2 ▸ List.mem_append_left t2 (contains_iff_mem.mp hp)
        · exact hrest x hx
      · simp only [hp, if_false, Bool.false_eq_true] at h
        cases hs : step d r p with
        | none => rw [hs] at h; exact absurd h (by simp)
        | some rp =>
          rw [hs] at h
          obtain ⟨r1, p1⟩ := rp
          obtain ⟨hinv1, hd1⟩ := hstepClosed d r p r1 p1 hs hinv
          obtain ⟨hinv', hrest⟩ := ih r1 p1 r' p' h hinv1
          obtain ⟨_, ⟨t4, ht4⟩⟩ := resolveDeps_grow hstepGrow rest r1 p1 r' p' h
          refine ⟨hinv', fun x hx => ?_⟩
          rcases List.mem_cons.mp hx with hx | hx
          · subst hx
            exact ht4 ▸ List.mem_append_left t4 hd1
          · exact hrest x hx

theorem resolveAux_closed (deps : Nat → List Nat) :
    ∀ fuel c r p r' p', resolveAux deps fuel c r p = some (r', p') →
      ClosedInv deps r p → ClosedInv deps r' p' ∧ c ∈ p' := by
  intro fuel
  induction fuel with
  | zero => intro c r p r' p' h; exact absurd h (by simp [resolveAux])
  | succ fuel ih =>
    intro c r p r' p' h hinv
    simp only [resolveAux] at h
    cases hs : resolveDeps (resolveAux deps fuel) (deps c) r (p ++ [c]) with
    | none => rw [hs] at h; exact absurd h (by simp)
    | some rp =>
      rw [hs] at h
      obtain ⟨r1, p1⟩ := rp
      simp only [Option.some.injEq, Prod.mk.injEq] at h
      obtain ⟨h1, h2⟩ := h
      subst h1; subst h2
      have hinv0 : ClosedInv deps r (p ++ [c]) :=
        ⟨fun x hx => List.mem_append_left _ (hinv.1 x hx),
         fun y hy z hz => List.mem_append_left _ (hinv.2 y hy z hz)⟩
      obtain ⟨hinv1, hds⟩ := resolveDeps_closed deps (resolveAux_grow deps fuel) ih
        (deps c) r (p ++ [c]) r1 p1 hs hinv0
      obtain ⟨_, ⟨t, ht⟩⟩ := resolveDeps_grow (resolveAux_grow deps fuel) (deps c) r
        (p ++ [c]) r1 p1 hs
      have hcp : c ∈ p1 := ht ▸ List.mem_append_left t (List.mem_append_right _ (by simp))
      refine ⟨⟨fun x hx => ?_, fun y hy z hz => ?_⟩, hcp⟩
      · rcases List.mem_append.mp hx with hx | hx
        · exact hinv1.1 x hx
        · exact (by simpa using hx : x = c) ▸ hcp
      · rcases List.mem_append.mp hy with hy | hy
        · exact hinv1.2 y hy z hz
        · exact hds z ((by simpa using hy : y = c) ▸ hz)

theorem resolveAux_self_mem (deps : Nat → List Nat) (fuel c : Nat) (r p r' p' : List Nat)
    (h : resolveAux deps fuel c r p = some (r', p')) : c ∈ r' := by
  cases fuel with
  | zero => exact absurd h (by simp [resolveAux])
  | succ fuel =>
    simp only [resolveAux] at h
    cases hs : resolveDeps (resolveAux deps fuel) (deps c) r (p ++ [c]) with
    | none => rw [hs] at h; exact absurd h (by simp)
    | some rp =>
      rw [hs] at h
      obtain ⟨r1, p1⟩ := rp
      simp only [Option.some.injEq, Prod.mk.injEq] at h
      exact h.1 ▸ List.mem_append_right _ (by simp)

/-! ### Termination of the resolver

Each recursive call of `resolve` enters a node that is not yet processed, so
the number of unprocessed nodes of any universe closed under the dependency
edges bounds the recursion depth. -/

theorem filter_length_mono (l : List Nat) (p q : Nat → Bool)
    (h : ∀ x, p x = true → q x = true) :
    (l.filter p).length ≤ (l.filter q).length := by
  induction l with
  | nil => simp
  | cons a l ih =>
    by_cases hp : p a
    · simp [List.filter_cons, hp, h a hp]
      omega
    · by_cases hq : q a
      · simp [List.filter_cons, hp, hq]
        omega
      · simp [List.filter_cons, hp, hq]
        exact ih

theorem filter_notContains_mono (l proc proc2 : List Nat)
    (h : ∀ x ∈ proc, x ∈ proc2) :
    (l.filter (fun x => !(proc2.contains x))).length ≤
      (l.filter (fun x => !(proc.contains x))).length := by
  apply filter_length_mono
  intro x hx
  simp only [Bool.not_eq_true', ← Bool.not_eq_true] at hx ⊢
  intro hc
  exact hx (contains_iff_mem.mpr (h x (contains_iff_mem.mp hc)))

theorem filter_notContains_lt (l proc : List Nat) (cid : Nat)
    (hl : cid ∈ l) (hp : cid ∉ proc) :
    (l.filter (fun x => !((proc ++ [cid]).contains x))).length <
      (l.filter (fun x => !(proc.contains x))).length := by
  induction l with
  | nil => exact absurd hl (by simp)
  | cons a l ih =>
    rw [List.filter_cons, List.filter_cons]
    by_cases hac : a = cid
    · subst hac
      have hc1 : ((proc ++ [a]).contains a) = true := contains_iff_mem.mpr (by simp)
      have hc2 : (proc.contains a) = false := by
        rw [← Bool.not_eq_true]
        intro hc
        exact hp (contains_iff_mem.mp hc)
      simp only [hc1, hc2, Bool.not_true, Bool.not_false, Bool.false_eq_true, if_false,
        if_true, List.length_cons]
      have hmono := filter_notContains_mono l proc (proc ++ [a])
        (fun x hx => List.mem_append_left _ hx)
      omega
    · have heq : ((proc ++ [cid]).contains a) = (proc.contains a) := by
        by_cases hc : proc.contains a
        · rw [hc, contains_iff_mem.mpr (List.mem_append_left _ (contains_iff_mem.mp hc))]
        · simp only [Bool.not_eq_true] at hc
          rw [hc, ← Bool.not_eq_true]
          intro habs
          rcases List.mem_append.mp (contains_iff_mem.mp habs) with hm | hm
          · exact absurd (contains_iff_mem.mpr hm) (by rw [hc]; simp)
          · exact hac (by simpa using hm)
      have hl2 : cid ∈ l := by
        rcases List.mem_cons.mp hl with hh | hh
        · exact absurd hh.symm hac
        · exact hh
      by_cases hc : proc.contains a
      · simp only [heq, hc, Bool.not_true, Bool.false_eq_true, if_false]
        exact ih hl2
      · simp only [Bool.not_eq_true] at hc
        simp only [heq, hc, Bool.not_false, if_true, List.length_cons]
        have := ih hl2
        omega

theorem resolveDeps_some
    {step : Nat → List Nat → List Nat → Option (List Nat × List Nat)}
    {U : List Nat} {N : Nat}
    (hstepGrow : ∀ c r p r' p', step c r p = some (r', p') →
      (∃ t, r' = r ++ t) ∧ (∃ t, p' = p ++ t))
    (hstepSome : ∀ c r p, c ∈ U → c ∉ p →
      (U.filter (fun x => !(p.contains x))).length ≤ N → ∃ out, step c r p = some out) :
    ∀ ds r p, (∀ d ∈ ds, d ∈ U) →
      (U.filter (fun x => !(p.contains x))).length ≤ N →
      ∃ out, resolveDeps step ds r p = some out := by
  intro ds
  induction ds with
  | nil => intro r p _ _; exact ⟨(r, p), rfl⟩
  | cons d rest ih =>
    intro r p hds hbound
    by_cases hr : r.contains d
    · obtain ⟨out, hout⟩ := ih r p (fun x hx => hds x (List.mem_cons_of_mem d hx)) hbound
      exact ⟨out, by simp only [resolveDeps, hr, if_true]; exact hout⟩
    · by_cases hp : p.contains d
      · obtain ⟨out, hout⟩ := ih r p (fun x hx => hds x (List.mem_cons_of_mem d hx)) hbound
        exact ⟨out, by simp only [resolveDeps, hr, hp, if_true, if_false,
          Bool.false_eq_true]; exact hout⟩
      · have hdU : d ∈ U := hds d (by simp)
        have hdp : d ∉ p := fun hm => absurd (contains_iff_mem.mpr hm) (by
          rw [Bool.not_eq_true] at hp; rw [hp]; simp)
        obtain ⟨out1, hout1⟩ := hstepSome d r p hdU hdp hbound
        obtain ⟨r1, p1⟩ := out1
        obtain ⟨_, ⟨t, ht⟩⟩ := hstepGrow d r p r1 p1 hout1
        have hb1 : (U.filter (fun x => !(p1.contains x))).length ≤ N :=
          le_trans (ht ▸ filter_notContains_mono U p (p ++ t)
            (fun x hx => List.mem_append_left _ hx)) hbound
        obtain ⟨out, hout⟩ := ih r1 p1 (fun x hx => hds x (List.mem_cons_of_mem d hx)) hb1
        refine ⟨out, ?_⟩
        simp only [resolveDeps, hr, hp, if_false, Bool.false_eq_true, hout1]
        exact hout

theorem resolveAux_some (deps : Nat → List Nat) (U : List Nat)
    (hU : ∀ c d, d ∈ deps c → d ∈ U) :
    ∀ fuel c r p, c ∈ U → c ∉ p →
      (U.filter (fun x => !(p.contains x))).length ≤ fuel →
      ∃ out, resolveAux deps fuel c r p = some out := by
  intro fuel
  induction fuel with
  | zero =>
    intro c r p hcU hcp hbound
    exfalso
    have hmem : c ∈ U.filter (fun x => !(p.contains x)) := by
      refine List.mem_filter.mpr ⟨hcU, ?_⟩
      simp only [Bool.not_eq_true']
      rw [← Bool.not_eq_true]
      intro hc
      exact hcp (contains_iff_mem.mp hc)
    have : 0 < (U.filter (fun x => !(p.contains x))).length :=
      List.length_pos.mpr (fun he => by rw [he] at hmem; exact absurd hmem (by simp))
    omega
  | succ fuel ih =>
    intro c r p hcU hcp hbound
    have hb1 : (U.filter (fun x => !((p ++ [c]).contains x))).length ≤ fuel := by
      have := filter_notContains_lt U p c hcU hcp
      omega
    obtain ⟨out1, hout1⟩ := resolveDeps_some (resolveAux_grow deps fuel)
      (fun c' r' p' hc' hp' hb' => ih c' r' p' hc' hp' hb')
      (deps c) r (p ++ [c]) (fun d hd => hU c d hd) hb1
    obtain ⟨r1, p1⟩ := out1
    exact ⟨(r1 ++ [c], p1), by simp only [resolveAux, hout1]⟩

/-! ### The post-order invariant of the resolver under acyclicity

Acyclicity of the dependency relation is expressed by a rank function that
strictly decreases along dependency edges (for the finite record sets the
loader handles this is equivalent to the absence of cycles).  Under it, every
pending (in-progress) node strictly outranks the node being resolved, so the
in-progress guard of `resolve` never fires and the produced list is a true
post-order: every node is preceded by all of its dependencies. -/

theorem resolveDeps_ordered (deps : Nat → List Nat) (rank : Nat → Nat) (B : Nat)
    {step : Nat → List Nat → List Nat → Option (List Nat × List Nat)}
    (hstepGrow : ∀ c r p r' p', step c r p = some (r', p') →
      (∃ t, r' = r ++ t) ∧ (∃ t, p' = p ++ t))
    (hstepPend : ∀ c r p r' p', step c r p = some (r', p') → c ∉ p →
      PendSpec r p r' p')
    (hstepMem : ∀ c r p r' p', step c r p = some (r', p') → c ∈ r')
    (hstepOrd : ∀ c r p r' p', step c r p = some (r', p') → c ∉ p →
      r.Nodup → (∀ x ∈ r, x ∈ p) → resolvedGood deps r →
      (∀ q ∈ p, q ∉ r → rank c < rank q) →
      r'.Nodup ∧ resolvedGood deps r' ∧ (∀ x ∈ r', x ∈ r ∨ rank x ≤ rank c) ∧
        (∀ x ∈ r', x ∈ p')) :
    ∀ ds r p r' p', resolveDeps step ds r p = some (r', p') →
      (∀ d ∈ ds, rank d < B) →
      r.Nodup → (∀ x ∈ r, x ∈ p) → resolvedGood deps r →
      (∀ q ∈ p, q ∉ r → B ≤ rank q) →
      r'.Nodup ∧ resolvedGood deps r' ∧ (∀ d ∈ ds, d ∈ r') ∧
        (∀ x ∈ r', x ∈ r ∨ rank x < B) ∧ (∀ x ∈ r', x ∈ p') ∧
        (∀ q ∈ p', q ∉ r' → B ≤ rank q) := by
  intro ds
  induction ds with
  | nil =>
    intro r p r' p' h hds hnd hsub hgood hpend
    simp only [resolveDeps, Option.some.injEq, Prod.mk.injEq] at h
    obtain ⟨h1, h2⟩ := h
    subst h1; subst h2
    exact ⟨hnd, hgood, by simp, fun x hx => Or.inl hx, hsub, hpend⟩
  | cons d rest ih =>
    intro r p r' p' h hds hnd hsub hgood hpend
    simp only [resolveDeps] at h
    by_cases hr : r.contains d
    · simp only [hr, if_true] at h
      obtain ⟨hnd', hgood', hrest', hnew', hsub', hpend'⟩ :=
        ih r p r' p' h (fun x hx => hds x (List.mem_cons_of_mem d hx)) hnd hsub hgood hpend
      obtain ⟨⟨t, ht⟩, _⟩ := resolveDeps_grow hstepGrow rest r p r' p' h
      refine ⟨hnd', hgood', fun x hx => ?_, hnew', hsub', hpend'⟩
      rcases List.mem_cons.mp hx with hx | hx
      · exact hx ▸ ht ▸ List.mem_append_left t (contains_iff_mem.mp hr)
      · exact hrest' x hx
    · simp only [hr, if_false, Bool.false_eq_true] at h
      have hdr : d ∉ r := fun hm => absurd (contains_iff_mem.mpr hm) (by
        rw [Bool.not_eq_true] at hr; rw [hr]; simp)
      by_cases hp : p.contains d
      · exfalso
        have h1 : B ≤ rank d := hpend d (contains_iff_mem.mp hp) hdr
        have h2 : rank d < B := hds d (by simp)
        omega
      · simp only [hp, if_false, Bool.false_eq_true] at h
        have hdp : d ∉ p := fun hm => absurd (contains_iff_mem.mpr hm) (by
          rw [Bool.not_eq_true] at hp; rw [hp]; simp)
        cases hs : step d r p with
        | none => rw [hs] at h; exact absurd h (by simp)
        | some rp =>
          rw [hs] at h
          obtain ⟨r1, p1⟩ := rp
          have hdB : rank d < B := hds d (by simp)
          obtain ⟨hnd1, hgood1, hnew1, hsub1⟩ := hstepOrd d r p r1 p1 hs hdp hnd hsub hgood
            (fun q hq hqr => lt_of_lt_of_le hdB (hpend q hq hqr))
          have hpend1 : ∀ q ∈ p1, q ∉ r1 → B ≤ rank q := by
            intro q hq hqr
            obtain ⟨hq1, hq2⟩ := (hstepPend d r p r1 p1 hs hdp).1 q hq hqr
            exact hpend q hq1 hq2
          obtain ⟨hnd', hgood', hrest', hnew', hsub', hpend'⟩ :=
            ih r1 p1 r' p' h (fun x hx => hds x (List.mem_cons_of_mem d hx))
              hnd1 hsub1 hgood1 hpend1
          obtain ⟨⟨t, ht⟩, _⟩ := resolveDeps_grow hstepGrow rest r1 p1 r' p' h
          refine ⟨hnd', hgood', fun x hx => ?_, fun x hx => ?_, hsub', hpend'⟩
          · rcases List.mem_cons.mp hx with hx | hx
            · exact hx ▸ ht ▸ List.mem_append_left t (hstepMem d r p r1 p1 hs)
            · exact hrest' x hx
          · rcases hnew' x hx with hx1 | hx1
            · rcases hnew1 x hx1 with hx2 | hx2
              · exact Or.inl hx2
              · exact Or.inr (lt_of_le_of_lt hx2 hdB)
            · exact Or.inr hx1

theorem resolveAux_ordered (deps : Nat → List Nat) (rank : Nat → Nat)
    (hrank : ∀ c d, d ∈ deps c → rank d < rank c) :
    ∀ fuel c r p r' p', resolveAux deps fuel c r p = some (r', p') →
      c ∉ p → r.Nodup → (∀ x ∈ r, x ∈ p) → resolvedGood deps r →
      (∀ q ∈ p, q ∉ r → rank c < rank q) →
      r'.Nodup ∧ resolvedGood deps r' ∧ (∀ x ∈ r', x ∈ r ∨ rank x ≤ rank c) ∧
        (∀ x ∈ r', x ∈ p') := by
  intro fuel
  induction fuel with
  | zero => intro c r p r' p' h; exact absurd h (by simp [resolveAux])
  | succ fuel ih =>
    intro c r p r' p' h hcp hnd hsub hgood hpend
    simp only [resolveAux] at h
    cases hs : resolveDeps (resolveAux deps fuel) (deps c) r (p ++ [c]) with
    | none => rw [hs] at h; exact absurd h (by simp)
    | some rp =>
      rw [hs] at h
      obtain ⟨r1, p1⟩ := rp
      simp only [Option.some.injEq, Prod.mk.injEq] at h
      obtain ⟨h1, h2⟩ := h
      subst h1; subst h2
      obtain ⟨hnd1, hgood1, hds1, hnew1, hsub1, hpend1⟩ :=
        resolveDeps_ordered deps rank (rank c) (resolveAux_grow deps fuel)
          (resolveAux_pend deps fuel)
          (fun c' r' p' r'' p'' hh => resolveAux_self_mem deps fuel c' r' p' r'' p'' hh)
          (fun c' r' p' r'' p'' hh => ih c' r' p' r'' p'' hh)
          (deps c) r (p ++ [c]) r1 p1 hs
          (fun d hd => hrank c d hd)
          hnd
          (fun x hx => List.mem_append_left _ (hsub x hx))
          hgood
          (by
            intro q hq hqr
            rcases List.mem_append.mp hq with hq' | hq'
            · exact le_of_lt (hpend q hq' hqr)
            · exact le_of_eq (congrArg rank (by simpa using hq')).symm)
      obtain ⟨_, ⟨t, ht⟩⟩ := resolveDeps_grow (resolveAux_grow deps fuel) (deps c) r
        (p ++ [c]) r1 p1 hs
      have hcr1 : c ∉ r1 := by
        intro hcm
        rcases hnew1 c hcm with hcm' | hcm'
        · exact hcp (hsub c hcm')
        · omega
      have hcp1 : c ∈ p1 := ht ▸ List.mem_append_left t (List.mem_append_right _ (by simp))
      refine ⟨?_, ?_, ?_, ?_⟩
      · exact List.nodup_append.mpr ⟨hnd1, by simp, by
          intro a ha hb
          exact hcr1 ((by simpa using hb : a = c) ▸ ha)⟩
      · exact resolvedGood_append hgood1 (fun d hd => hds1 d hd)
      · intro x hx
        rcases List.mem_append.mp hx with hx' | hx'
        · rcases hnew1 x hx' with hx1 | hx1
          · exact Or.inl hx1
          · exact Or.inr (le_of_lt hx1)
        · exact Or.inr (le_of_eq (congrArg rank (by simpa using hx' : x = c)))
      · intro x hx
        rcases List.mem_append.mp hx with hx' | hx'
        · exact hsub1 x hx'
        · exact (by simpa using hx' : x = c) ▸ hcp1

/-! ### The merge into the global resolved list -/

theorem mergeResolved_nil (G : List Nat) : mergeResolved G [] = G := rfl

theorem mergeResolved_cons (G : List Nat) (d : Nat) (L : List Nat) :
    mergeResolved G (d :: L) =
      mergeResolved (if G.contains d then G else G ++ [d]) L := rfl

theorem mergeResolved_grow (L : List Nat) :
    ∀ G, ∃ t, mergeResolved G L = G ++ t := by
  induction L with
  | nil => intro G; exact ⟨[], by simp [mergeResolved_nil]⟩
  | cons d L ih =>
    intro G
    rw [mergeResolved_cons]
    by_cases hc : G.contains d
    · rw [if_pos hc]; exact ih G
    · rw [if_neg hc]
      obtain ⟨t, ht⟩ := ih (G ++ [d])
      exact ⟨[d] ++ t, by rw [ht, List.append_assoc]⟩

theorem mergeResolved_mem_left {G : List Nat} {x : Nat} (L : List Nat) (h : x ∈ G) :
    x ∈ mergeResolved G L := by
  obtain ⟨t, ht⟩ := mergeResolved_grow L G
  exact ht ▸ List.mem_append_left t h

theorem mergeResolved_mem_right {L : List Nat} {x : Nat} :
    ∀ G, x ∈ L → x ∈ mergeResolved G L := by
  induction L with
  | nil => intro G h; exact absurd h (by simp)
  | cons d L ih =>
    intro G h
    rw [mergeResolved_cons]
    rcases List.mem_cons.mp h with h | h
    · subst h
      by_cases hc : G.contains x
      · rw [if_pos hc]
        exact mergeResolved_mem_left L (contains_iff_mem.mp hc)
      · rw [if_neg hc]
        exact mergeResolved_mem_left L (List.mem_append_right _ (by simp))
    · by_cases hc : G.contains d
      · rw [if_pos hc]; exact ih G h
      · rw [if_neg hc]; exact ih (G ++ [d]) h

theorem mergeResolved_subset {L : List Nat} {x : Nat} :
    ∀ G, x ∈ mergeResolved G L → x ∈ G ∨ x ∈ L := by
  induction L with
  | nil => intro G h; exact Or.inl (by simpa [mergeResolved_nil] using h)
  | cons d L ih =>
    intro G h
    rw [mergeResolved_cons] at h
    by_cases hc : G.contains d
    · rw [if_pos hc] at h
      rcases ih G h with h | h
      · exact Or.inl h
      · exact Or.inr (List.mem_cons_of_mem d h)
    · rw [if_neg hc] at h
      rcases ih (G ++ [d]) h with h | h
      · rcases List.mem_append.mp h with h | h
        · exact Or.inl h
        · exact Or.inr (by simp [(by simpa using h : x = d)])
      · exact Or.inr (List.mem_cons_of_mem d h)

theorem mergeResolved_nodup {L : List Nat} :
    ∀ G, G.Nodup → (mergeResolved G L).Nodup := by
  induction L with
  | nil => intro G h; simpa [mergeResolved_nil] using h
  | cons d L ih =>
    intro G h
    rw [mergeResolved_cons]
    by_cases hc : G.contains d
    · rw [if_pos hc]; exact ih G h
    · rw [if_neg hc]
      refine ih (G ++ [d]) (List.nodup_append.mpr ⟨h, by simp, ?_⟩)
      intro a ha hb
      have : a = d := by simpa using hb
      exact absurd (contains_iff_mem.mpr (this ▸ ha)) (by
        rw [Bool.not_eq_true] at hc; rw [hc]; simp)

theorem beforeIn_split {L1 L2 : List Nat} {c d : Nat}
    (hnd : (L1 ++ c :: L2).Nodup) (h : beforeIn (L1 ++ c :: L2) d c) : d ∈ L1 := by
  obtain ⟨i, j, hij, hi, hj⟩ := h
  have hjc : (L1 ++ c :: L2).get? L1.length = some c := by
    rw [List.get?_append_right (le_refl _)]
    simp
  have hjl : j < (L1 ++ c :: L2).length := (List.get?_eq_some.mp hj).1
  have hje : j = L1.length := List.get?_inj hjl hnd (hj.trans hjc.symm)
  have hil : i < L1.length := hje ▸ hij
  rw [List.get?_append hil] at hi
  exact List.get?_mem hi

theorem mergeResolved_good_aux (deps : Nat → List Nat) :
    ∀ (L2 L1 A : List Nat), A.Nodup → resolvedGood deps A →
      (L1 ++ L2).Nodup → resolvedGood deps (L1 ++ L2) →
      (∀ x ∈ L1, x ∈ A) →
      (mergeResolved A L2).Nodup ∧ resolvedGood deps (mergeResolved A L2) := by
  intro L2
  induction L2 with
  | nil => intro L1 A hA hAg _ _ _; exact ⟨by simpa [mergeResolved_nil] using hA,
      by simpa [mergeResolved_nil] using hAg⟩
  | cons c L2 ih =>
    intro L1 A hA hAg hL hLg hsub
    rw [mergeResolved_cons]
    have hassoc : (L1 ++ [c]) ++ L2 = L1 ++ c :: L2 := by simp
    by_cases hc : A.contains c
    · rw [if_pos hc]
      refine ih (L1 ++ [c]) A hA hAg (hassoc ▸ hL) (hassoc ▸ hLg) ?_
      intro x hx
      rcases List.mem_append.mp hx with hx | hx
      · exact hsub x hx
      · exact (by simpa using hx : x = c) ▸ contains_iff_mem.mp hc
    · rw [if_neg hc]
      have hcA : c ∉ A := fun hm => absurd (contains_iff_mem.mpr hm) (by
        rw [Bool.not_eq_true] at hc; rw [hc]; simp)
      have hA' : (A ++ [c]).Nodup := List.nodup_append.mpr ⟨hA, by simp, by
        intro a ha hb
        exact hcA ((by simpa using hb : a = c) ▸ ha)⟩
      have hAg' : resolvedGood deps (A ++ [c]) := by
        refine resolvedGood_append hAg ?_
        intro d hd
        have hcL : c ∈ L1 ++ c :: L2 := List.mem_append_right _ (by simp)
        have := hLg c hcL d hd
        exact hsub d (beforeIn_split hL this)
      refine ih (L1 ++ [c]) (A ++ [c]) hA' hAg' (hassoc ▸ hL) (hassoc ▸ hLg) ?_
      intro x hx
      rcases List.mem_append.mp hx with hx | hx
      · exact List.mem_append_left _ (hsub x hx)
      · exact List.mem_append_right _ hx

theorem mergeResolved_good (deps : Nat → List Nat) {G L : List Nat}
    (hG : G.Nodup) (hGg : resolvedGood deps G)
    (hL : L.Nodup) (hLg : resolvedGood deps L) :
    (mergeResolved G L).Nodup ∧ resolvedGood deps (mergeResolved G L) :=
  mergeResolved_good_aux deps L [] G hG hGg (by simpa) (by simpa) (by simp)

/-! ### The resolution loop over all roots -/

theorem resolveStep_eq (deps : Nat → List Nat) (fuel : Nat) (G0 : List Nat) (root : Nat) :
    resolveStep deps fuel (some G0) root =
      if G0.contains root = true then some G0
      else
        match resolveAux deps fuel root [] [] with
        | none => none
        | some (dependencyResolveList, _) =>
          some (mergeResolved G0 dependencyResolveList) := rfl

theorem resolveFold_none (deps : Nat → List Nat) (fuel : Nat) :
    ∀ roots : List Nat, roots.foldl (resolveStep deps fuel) none = none := by
  intro roots
  induction roots with
  | nil => rfl
  | cons root rest ih => simpa [resolveStep] using ih

theorem resolveFold_good (deps : Nat → List Nat) (rank : Nat → Nat)
    (hrank : ∀ c d, d ∈ deps c → rank d < rank c) (fuel : Nat) :
    ∀ (roots : List Nat) (G0 : List Nat), G0.Nodup → resolvedGood deps G0 →
      ∀ G, roots.foldl (resolveStep deps fuel) (some G0) = some G →
        G.Nodup ∧ resolvedGood deps G := by
  intro roots
  induction roots with
  | nil =>
    intro G0 hnd hgood G h
    cases (by simpa using h : G0 = G)
    exact ⟨hnd, hgood⟩
  | cons root rest ih =>
    intro G0 hnd hgood G h
    rw [List.foldl_cons] at h
    by_cases hc : G0.contains root
    · rw [show resolveStep deps fuel (some G0) root = some G0 by
        rw [resolveStep_eq, if_pos hc]] at h
      exact ih G0 hnd hgood G h
    · cases hres : resolveAux deps fuel root [] [] with
      | none =>
        rw [show resolveStep deps fuel (some G0) root = none by
          rw [resolveStep_eq, if_neg hc, hres]] at h
        rw [resolveFold_none] at h
        exact absurd h (by simp)
      | some rp =>
        obtain ⟨drl, pl⟩ := rp
        rw [show resolveStep deps fuel (some G0) root = some (mergeResolved G0 drl) by
          rw [resolveStep_eq, if_neg hc, hres]] at h
        obtain ⟨hLnd, hLg, _, _⟩ := resolveAux_ordered deps rank hrank fuel root [] [] drl pl
          hres (by simp) (by simp) (by simp) (by intro c hc; exact absurd hc (by simp))
          (by intro q hq; exact absurd hq (by simp))
        obtain ⟨hnd', hgood'⟩ := mergeResolved_good deps hnd hgood hLnd hLg
        exact ih (mergeResolved G0 drl) hnd' hgood' G h

theorem resolveFold_complete (deps : Nat → List Nat) (fuel : Nat) :
    ∀ (roots : List Nat) (G0 : List Nat), G0.Nodup →
      (∀ y ∈ G0, ∀ z ∈ deps y, z ∈ G0) →
      ∀ G, roots.foldl (resolveStep deps fuel) (some G0) = some G →
        G.Nodup ∧ (∀ y ∈ G, ∀ z ∈ deps y, z ∈ G) ∧ (∀ x ∈ roots, x ∈ G) ∧
          (∃ t, G = G0 ++ t) := by
  intro roots
  induction roots with
  | nil =>
    intro G0 hnd hclosed G h
    cases (by simpa using h : G0 = G)
    exact ⟨hnd, hclosed, by simp, ⟨[], by simp⟩⟩
  | cons root rest ih =>
    intro G0 hnd hclosed G h
    rw [List.foldl_cons] at h
    by_cases hc : G0.contains root
    · rw [show resolveStep deps fuel (some G0) root = some G0 by
        rw [resolveStep_eq, if_pos hc]] at h
      obtain ⟨hnd', hclosed', hroots', ⟨t, ht⟩⟩ := ih G0 hnd hclosed G h
      refine ⟨hnd', hclosed', fun x hx => ?_, ⟨t, ht⟩⟩
      rcases List.mem_cons.mp hx with hx | hx
      · exact hx ▸ ht ▸ List.mem_append_left t (contains_iff_mem.mp hc)
      · exact hroots' x hx
    · cases hres : resolveAux deps fuel root [] [] with
      | none =>
        rw [show resolveStep deps fuel (some G0) root = none by
          rw [resolveStep_eq, if_neg hc, hres]] at h
        rw [resolveFold_none] at h
        exact absurd h (by simp)
      | some rp =>
        obtain ⟨drl, pl⟩ := rp
        rw [show resolveStep deps fuel (some G0) root = some (mergeResolved G0 drl) by
          rw [resolveStep_eq, if_neg hc, hres]] at h
        obtain ⟨⟨hsub1, hclosed1⟩, _⟩ := resolveAux_closed deps fuel root [] [] drl pl hres
          ⟨by simp, by simp⟩
        have hpend := resolveAux_pend deps fuel root [] [] drl pl hres (by simp)
        have hplsub : ∀ x ∈ pl, x ∈ drl := by
          intro x hx
          by_cases hxd : x ∈ drl
          · exact hxd
          · exact absurd (hpend.1 x hx hxd).1 (by simp)
        have hdrlClosed : ∀ y ∈ drl, ∀ z ∈ deps y, z ∈ drl :=
          fun y hy z hz => hplsub z (hclosed1 y hy z hz)
        have hrootdrl : root ∈ drl := resolveAux_self_mem deps fuel root [] [] drl pl hres
        have hndM : (mergeResolved G0 drl).Nodup := mergeResolved_nodup G0 hnd
        have hclosedM : ∀ y ∈ mergeResolved G0 drl, ∀ z ∈ deps y, z ∈ mergeResolved G0 drl := by
          intro y hy z hz
          rcases mergeResolved_subset G0 hy with hy' | hy'
          · exact mergeResolved_mem_left drl (hclosed y hy' z hz)
          · exact mergeResolved_mem_right G0 (hdrlClosed y hy' z hz)
        obtain ⟨hnd', hclosed', hroots', ⟨t, ht⟩⟩ :=
          ih (mergeResolved G0 drl) hndM hclosedM G h
        obtain ⟨t0, ht0⟩ := mergeResolved_grow drl G0
        refine ⟨hnd', hclosed', fun x hx => ?_, ⟨t0 ++ t, by rw [ht, ht0, List.append_assoc]⟩⟩
        rcases List.mem_cons.mp hx with hx | hx
        · exact hx ▸ ht ▸ List.mem_append_left t (mergeResolved_mem_right G0 hrootdrl)
        · exact hroots' x hx

theorem resolveFold_some (deps : Nat → List Nat) (U : List Nat) (fuel : Nat)
    (hU : ∀ c d, d ∈ deps c → d ∈ U) (hfuel : U.length ≤ fuel) :
    ∀ (roots : List Nat) (G0 : List Nat), (∀ x ∈ roots, x ∈ U) →
      ∃ G, roots.foldl (resolveStep deps fuel) (some G0) = some G := by
  intro roots
  induction roots with
  | nil => intro G0 _; exact ⟨G0, rfl⟩
  | cons root rest ih =>
    intro G0 hroots
    rw [List.foldl_cons]
    by_cases hc : G0.contains root
    · rw [show resolveStep deps fuel (some G0) root = some G0 by
        rw [resolveStep_eq, if_pos hc]]
      exact ih G0 (fun x hx => hroots x (List.mem_cons_of_mem root hx))
    · have hfilter : (U.filter (fun x => !((([] : List Nat)).contains x))).length ≤ fuel := by
        have : U.filter (fun x => !((([] : List Nat)).contains x)) = U :=
          List.filter_eq_self.mpr (fun a _ => by simp)
        rw [this]
        exact hfuel
      obtain ⟨out, hout⟩ := resolveAux_some deps U hU fuel root [] []
        (hroots root (by simp)) (by simp) hfilter
      obtain ⟨drl, pl⟩ := out
      rw [show resolveStep deps fuel (some G0) root = some (mergeResolved G0 drl) by
        rw [resolveStep_eq, if_neg hc, hout]]
      exact ih (mergeResolved G0 drl) (fun x hx => hroots x (List.mem_cons_of_mem root hx))

/-! ### The dependency walk (step 1 of `loadComponents`) -/

theorem mapLookup_mem {m : List (String × Nat)} {k : String}
    (h : mapContains m k = true) : mapLookup m k ∈ m.map Prod.snd := by
  induction m with
  | nil => exact absurd h (by simp [mapContains])
  | cons e rest ih =>
    obtain ⟨k', v'⟩ := e
    by_cases hk : k' = k
    · subst hk
      simp [mapLookup]
    · have h' : mapContains rest k = true := by
        simpa [mapContains, hk] using h
      simp only [mapLookup, hk, if_false, List.map_cons]
      exact List.mem_cons_of_mem _ (ih h')

theorem walkDependency_fields (search : List (String × Nat)) (c : Component)
    (d : JsonValue) :
    (walkDependency search c d).m_name = c.m_name ∧
    (walkDependency search c d).m_filename = c.m_filename ∧
    (walkDependency search c d).m_metadata = c.m_metadata ∧
    (walkDependency search c d).m_isLoaded = c.m_isLoaded := by
  by_cases hc : mapContains search (dependencyEntryName d)
  · simp [walkDependency, hc, Component.addDependency]
  · simp [walkDependency, hc]

theorem walkDependency_flags (search : List (String × Nat)) (c : Component)
    (d : JsonValue) :
    (walkDependency search c d).m_loadFlags.loaded = c.m_loadFlags.loaded ∧
    (walkDependency search c d).m_loadFlags.incompatibleQtVersion =
      c.m_loadFlags.incompatibleQtVersion ∧
    (walkDependency search c d).m_loadFlags.nameClash = c.m_loadFlags.nameClash ∧
    (walkDependency search c d).m_loadFlags.disabled = c.m_loadFlags.disabled ∧
    (walkDependency search c d).m_loadFlags.incompatibleVersion =
      c.m_loadFlags.incompatibleVersion ∧
    (walkDependency search c d).m_loadFlags.unableToLoad = c.m_loadFlags.unableToLoad ∧
    (walkDependency search c d).m_loadFlags.missingInterface =
      c.m_loadFlags.missingInterface ∧
    (walkDependency search c d).m_loadFlags.missingDependency =
      (c.m_loadFlags.missingDependency || !(mapContains search (dependencyEntryName d))) := by
  by_cases hc : mapContains search (dependencyEntryName d)
  · simp [walkDependency, hc, Component.addDependency]
  · simp [walkDependency, hc, LoadFlags.setFlag]

theorem walkDependency_deps (search : List (String × Nat)) (c : Component)
    (d : JsonValue) :
    ∀ x ∈ (walkDependency search c d).m_dependencies,
      x ∈ c.m_dependencies ∨ x ∈ search.map Prod.snd := by
  intro x hx
  by_cases hc : mapContains search (dependencyEntryName d)
  · simp only [walkDependency, hc, if_true, Component.addDependency] at hx
    rcases List.mem_append.mp hx with hx | hx
    · exact Or.inl hx
    · exact Or.inr ((by simpa using hx : x = _) ▸ mapLookup_mem hc)
  · simp only [walkDependency, hc, if_false, Bool.false_eq_true] at hx
    exact Or.inl hx

theorem walkDependency_missing (search : List (String × Nat)) (c : Component)
    (d : JsonValue) :
    (∀ s ∈ c.m_missingDependencies, s ∈ (walkDependency search c d).m_missingDependencies) ∧
    (mapContains search (dependencyEntryName d) = false →
      dependencyEntryName d ∈ (walkDependency search c d).m_missingDependencies) := by
  by_cases hc : mapContains search (dependencyEntryName d)
  · constructor
    · intro s hs
      simpa [walkDependency, hc, Component.addDependency] using hs
    · intro hf
      rw [hf] at hc
      exact absurd hc (by simp)
  · constructor
    · intro s hs
      simp only [walkDependency, hc, if_false, Bool.false_eq_true]
      exact List.mem_append_left _ hs
    · intro _
      simp only [walkDependency, hc, if_false, Bool.false_eq_true]
      exact List.mem_append_right _ (by simp)

theorem walkFold_fields (search : List (String × Nat)) :
    ∀ (ds : List JsonValue) (c : Component),
      (ds.foldl (walkDependency search) c).m_name = c.m_name ∧
      (ds.foldl (walkDependency search) c).m_filename = c.m_filename ∧
      (ds.foldl (walkDependency search) c).m_metadata = c.m_metadata ∧
      (ds.foldl (walkDependency search) c).m_isLoaded = c.m_isLoaded := by
  intro ds
  induction ds with
  | nil => intro c; exact ⟨rfl, rfl, rfl, rfl⟩
  | cons d rest ih =>
    intro c
    obtain ⟨h1, h2, h3, h4⟩ := ih (walkDependency search c d)
    obtain ⟨g1, g2, g3, g4⟩ := walkDependency_fields search c d
    exact ⟨h1.trans g1, h2.trans g2, h3.trans g3, h4.trans g4⟩

theorem walkFold_flags (search : List (String × Nat)) :
    ∀ (ds : List JsonValue) (c : Component),
      (ds.foldl (walkDependency search) c).m_loadFlags.loaded = c.m_loadFlags.loaded ∧
      (ds.foldl (walkDependency search) c).m_loadFlags.incompatibleQtVersion =
        c.m_loadFlags.incompatibleQtVersion ∧
      (ds.foldl (walkDependency search) c).m_loadFlags.nameClash =
        c.m_loadFlags.nameClash ∧
      (ds.foldl (walkDependency search) c).m_loadFlags.disabled =
        c.m_loadFlags.disabled ∧
      (ds.foldl (walkDependency search) c).m_loadFlags.incompatibleVersion =
        c.m_loadFlags.incompatibleVersion ∧
      (ds.foldl (walkDependency search) c).m_loadFlags.unableToLoad =
        c.m_loadFlags.unableToLoad ∧
      (ds.foldl (walkDependency search) c).m_loadFlags.missingInterface =
        c.m_loadFlags.missingInterface ∧
      (ds.foldl (walkDependency search) c).m_loadFlags.missingDependency =
        (c.m_loadFlags.missingDependency ||
          ds.any (fun d => !(mapContains search (dependencyEntryName d)))) := by
  intro ds
  induction ds with
  | nil => intro c; simp
  | cons d rest ih =>
    intro c
    obtain ⟨h1, h2, h3, h4, h5, h6, h7, h8⟩ := ih (walkDependency search c d)
    obtain ⟨g1, g2, g3, g4, g5, g6, g7, g8⟩ := walkDependency_flags search c d
    refine ⟨h1.trans g1, h2.trans g2, h3.trans g3, h4.trans g4, h5.trans g5,
      h6.trans g6, h7.trans g7, ?_⟩
    rw [List.foldl_cons, h8, g8, List.any_cons]
    cases c.m_loadFlags.missingDependency <;>
      cases hm : mapContains search (dependencyEntryName d) <;> simp

theorem walkFold_deps (search : List (String × Nat)) :
    ∀ (ds : List JsonValue) (c : Component),
      ∀ x ∈ (ds.foldl (walkDependency search) c).m_dependencies,
        x ∈ c.m_dependencies ∨ x ∈ search.map Prod.snd := by
  intro ds
  induction ds with
  | nil => intro c x hx; exact Or.inl hx
  | cons d rest ih =>
    intro c x hx
    rcases ih (walkDependency search c d) x hx with hx' | hx'
    · exact walkDependency_deps search c d x hx'
    · exact Or.inr hx'

theorem walkFold_missing (search : List (String × Nat)) :
    ∀ (ds : List JsonValue) (c : Component),
      (∀ s ∈ c.m_missingDependencies,
        s ∈ (ds.foldl (walkDependency search) c).m_missingDependencies) ∧
      (∀ d ∈ ds, mapContains search (dependencyEntryName d) = false →
        dependencyEntryName d ∈ (ds.foldl (walkDependency search) c).m_missingDependencies) := by
  intro ds
  induction ds with
  | nil => intro c; exact ⟨fun s hs => hs, by simp⟩
  | cons d rest ih =>
    intro c
    obtain ⟨ihKeep, ihNew⟩ := ih (walkDependency search c d)
    obtain ⟨wKeep, wNew⟩ := walkDependency_missing search c d
    constructor
    · intro s hs
      exact ihKeep s (wKeep s hs)
    · intro d' hd' hf
      rcases List.mem_cons.mp hd' with hd' | hd'
      · subst hd'
        exact ihKeep _ (wNew hf)
      · exact ihNew d' hd' hf

theorem processEntry_eq (search : List (String × Nat)) (store : Nat → Component)
    (cl : List Nat) (e : String × Nat) :
    processEntry search (store, cl) e =
      if (store e.2).m_loadFlags.any = true then (store, cl)
      else
        if (!((metadataDependencies (store e.2)).foldl (walkDependency search)
            (store e.2)).m_loadFlags.any) = true then
          (updateStore store e.2
            ((metadataDependencies (store e.2)).foldl (walkDependency search) (store e.2)),
           cl ++ [e.2])
        else
          (updateStore store e.2
            ((metadataDependencies (store e.2)).foldl (walkDependency search) (store e.2)),
           cl) := rfl

theorem processEntry_other (search : List (String × Nat)) (store : Nat → Component)
    (cl : List Nat) (e : String × Nat) (cid : Nat) (h : cid ≠ e.2) :
    ((processEntry search (store, cl) e).1 cid = store cid) ∧
    (cid ∈ (processEntry search (store, cl) e).2 ↔ cid ∈ cl) := by
  rw [processEntry_eq]
  by_cases h1 : (store e.2).m_loadFlags.any = true
  · rw [if_pos h1]
    exact ⟨rfl, Iff.rfl⟩
  · rw [if_neg h1]
    by_cases h2 : (!((metadataDependencies (store e.2)).foldl (walkDependency search)
        (store e.2)).m_loadFlags.any) = true
    · rw [if_pos h2]
      refine ⟨by simp [updateStore, h], ?_⟩
      constructor
      · intro hm
        rcases List.mem_append.mp hm with hm | hm
        · exact hm
        · exact absurd (by simpa using hm) h
      · intro hm
        exact List.mem_append_left _ hm
    · rw [if_neg h2]
      exact ⟨by simp [updateStore, h], Iff.rfl⟩

theorem processFold_other (search : List (String × Nat)) :
    ∀ (entries : List (String × Nat)) (store : Nat → Component) (cl : List Nat) (cid : Nat),
      (∀ e ∈ entries, cid ≠ e.2) →
      ((entries.foldl (processEntry search) (store, cl)).1 cid = store cid) ∧
      (cid ∈ (entries.foldl (processEntry search) (store, cl)).2 ↔ cid ∈ cl) := by
  intro entries
  induction entries with
  | nil => intro store cl cid _; exact ⟨rfl, Iff.rfl⟩
  | cons e rest ih =>
    intro store cl cid hne
    rw [List.foldl_cons]
    obtain ⟨he1, he2⟩ := processEntry_other search store cl e cid (hne e (by simp))
    obtain ⟨hr1, hr2⟩ := ih (processEntry search (store, cl) e).1
      (processEntry search (store, cl) e).2 cid
      (fun e' he' => hne e' (List.mem_cons_of_mem e he'))
    rw [Prod.mk.eta] at hr1 hr2
    exact ⟨hr1.trans he1, hr2.trans he2⟩

theorem processFold_flagged (search : List (String × Nat)) :
    ∀ (entries : List (String × Nat)) (store : Nat → Component) (cl : List Nat) (cid : Nat),
      (store cid).m_loadFlags.any = true →
      ((entries.foldl (processEntry search) (store, cl)).1 cid = store cid) ∧
      (cid ∈ (entries.foldl (processEntry search) (store, cl)).2 ↔ cid ∈ cl) := by
  intro entries
  induction entries with
  | nil => intro store cl cid _; exact ⟨rfl, Iff.rfl⟩
  | cons e rest ih =>
    intro store cl cid hflag
    rw [List.foldl_cons]
    by_cases he : cid = e.2
    · have heq : processEntry search (store, cl) e = (store, cl) := by
        rw [processEntry_eq, if_pos (he ▸ hflag)]
      rw [heq]
      exact ih store cl cid hflag
    · obtain ⟨he1, he2⟩ := processEntry_other search store cl e cid he
      obtain ⟨hr1, hr2⟩ := ih (processEntry search (store, cl) e).1
        (processEntry search (store, cl) e).2 cid (he1 ▸ hflag)
      rw [Prod.mk.eta] at hr1 hr2
      exact ⟨hr1.trans he1, hr2.trans he2⟩

theorem processFold_entry (search : List (String × Nat)) :
    ∀ (entries : List (String × Nat)) (store : Nat → Component) (cl : List Nat)
      (nm : String) (cid : Nat),
      (nm, cid) ∈ entries →
      (entries.map Prod.snd).Nodup →
      (store cid).m_loadFlags.any = false →
      ((entries.foldl (processEntry search) (store, cl)).1 cid =
        (metadataDependencies (store cid)).foldl (walkDependency search) (store cid)) ∧
      (cid ∈ (entries.foldl (processEntry search) (store, cl)).2 ↔
        (cid ∈ cl ∨ ((metadataDependencies (store cid)).foldl (walkDependency search)
          (store cid)).m_loadFlags.any = false)) := by
  intro entries
  induction entries with
  | nil => intro store cl nm cid hmem; exact absurd hmem (by simp)
  | cons e rest ih =>
    intro store cl nm cid hmem hnd hflag
    rw [List.foldl_cons]
    have hndrest : (rest.map Prod.snd).Nodup := by
      rw [List.map_cons, List.nodup_cons] at hnd
      exact hnd.2
    by_cases he : cid = e.2
    · have hrestne : ∀ e' ∈ rest, cid ≠ e'.2 := by
        intro e' he' habs
        rw [List.map_cons, List.nodup_cons] at hnd
        exact hnd.1 (he ▸ habs ▸ List.mem_map_of_mem Prod.snd he')
      have hflagE : (store e.2).m_loadFlags.any = false := he ▸ hflag
      rw [processEntry_eq, if_neg (by rw [hflagE]; simp)]
      by_cases h2 : (!((metadataDependencies (store e.2)).foldl (walkDependency search)
          (store e.2)).m_loadFlags.any) = true
      · rw [if_pos h2]
        obtain ⟨hr1, hr2⟩ := processFold_other search rest
          (updateStore store e.2
            ((metadataDependencies (store e.2)).foldl (walkDependency search) (store e.2)))
          (cl ++ [e.2]) cid hrestne
        refine ⟨hr1.trans (by simp [updateStore, he]), ?_⟩
        rw [hr2]
        constructor
        · intro hm
          rcases List.mem_append.mp hm with hm | hm
          · exact Or.inl hm
          · refine Or.inr ?_
            rw [he]
            simpa using h2
        · intro _
          exact List.mem_append_right _ (by simp [he])
      · rw [if_neg h2]
        obtain ⟨hr1, hr2⟩ := processFold_other search rest
          (updateStore store e.2
            ((metadataDependencies (store e.2)).foldl (walkDependency search) (store e.2)))
          cl cid hrestne
        refine ⟨hr1.trans (by simp [updateStore, he]), ?_⟩
        rw [hr2]
        constructor
        · intro hm
          exact Or.inl hm
        · intro hm
          rcases hm with hm | hm
          · exact hm
          · exfalso
            rw [he] at hm
            rw [hm] at h2
            exact h2 (by simp)
    · have hmemrest : (nm, cid) ∈ rest := by
        rcases List.mem_cons.mp hmem with hm | hm
        · exact absurd (congrArg Prod.snd hm : cid = e.2) he
        · exact hm
      obtain ⟨he1, he2⟩ := processEntry_other search store cl e cid he
      obtain ⟨hr1, hr2⟩ := ih (processEntry search (store, cl) e).1
        (processEntry search (store, cl) e).2 nm cid hmemrest hndrest (he1 ▸ hflag)
      rw [Prod.mk.eta] at hr1 hr2
      rw [he1] at hr1 hr2
      exact ⟨hr1, hr2.trans (by rw [he2])⟩

theorem processFold_depsSub (search : List (String × Nat)) :
    ∀ (entries : List (String × Nat)) (store : Nat → Component) (cl : List Nat),
      (∀ cid, ∀ d ∈ (store cid).m_dependencies, d ∈ search.map Prod.snd) →
      ∀ cid, ∀ d ∈ ((entries.foldl (processEntry search) (store, cl)).1 cid).m_dependencies,
        d ∈ search.map Prod.snd := by
  intro entries
  induction entries with
  | nil => intro store cl h cid d hd; exact h cid d hd
  | cons e rest ih =>
    intro store cl h cid d hd
    rw [List.foldl_cons] at hd
    refine ih (processEntry search (store, cl) e).1 (processEntry search (store, cl) e).2
      ?_ cid d (by rw [Prod.mk.eta]; exact hd)
    intro cid' d' hd'
    rw [processEntry_eq] at hd'
    by_cases h1 : (store e.2).m_loadFlags.any = true
    · rw [if_pos h1] at hd'
      exact h cid' d' hd'
    · rw [if_neg h1] at hd'
      by_cases h2 : (!((metadataDependencies (store e.2)).foldl (walkDependency search)
          (store e.2)).m_loadFlags.any) = true
      · rw [if_pos h2] at hd'
        by_cases hc : cid' = e.2
        · simp only [updateStore] at hd'
          rw [if_pos hc] at hd'
          rcases walkFold_deps search (metadataDependencies (store e.2))
            (store e.2) d' hd' with hh | hh
          · exact h e.2 d' hh
          · exact hh
        · simp only [updateStore] at hd'
          rw [if_neg hc] at hd'
          exact h cid' d' hd'
      · rw [if_neg h2] at hd'
        by_cases hc : cid' = e.2
        · simp only [updateStore] at hd'
          rw [if_pos hc] at hd'
          rcases walkFold_deps search (metadataDependencies (store e.2))
            (store e.2) d' hd' with hh | hh
          · exact h e.2 d' hh
          · exact hh
        · simp only [updateStore] at hd'
          rw [if_neg hc] at hd'
          exact h cid' d' hd'

theorem processFold_roots (search : List (String × Nat)) :
    ∀ (entries : List (String × Nat)) (store : Nat → Component) (cl : List Nat),
      ∀ x ∈ (entries.foldl (processEntry search) (store, cl)).2,
        x ∈ cl ∨ x ∈ entries.map Prod.snd := by
  intro entries
  induction entries with
  | nil => intro store cl x hx; exact Or.inl hx
  | cons e rest ih =>
    intro store cl x hx
    rw [List.foldl_cons] at hx
    have := ih (processEntry search (store, cl) e).1 (processEntry search (store, cl) e).2 x
      (by rw [Prod.mk.eta]; exact hx)
    rcases this with hx' | hx'
    · rw [processEntry_eq] at hx'
      by_cases h1 : (store e.2).m_loadFlags.any = true
      · rw [if_pos h1] at hx'
        exact Or.inl hx'
      · rw [if_neg h1] at hx'
        by_cases h2 : (!((metadataDependencies (store e.2)).foldl (walkDependency search)
            (store e.2)).m_loadFlags.any) = true
        · rw [if_pos h2] at hx'
          rcases List.mem_append.mp hx' with hm | hm
          · exact Or.inl hm
          · exact Or.inr (by simp [(by simpa using hm : x = e.2)])
        · rw [if_neg h2] at hx'
          exact Or.inl hx'
    · exact Or.inr (by rw [List.map_cons]; exact List.mem_cons_of_mem _ hx')

theorem findDependencies_searchList (st : LoaderState) :
    (findDependencies st).1.searchList = st.searchList := rfl

theorem findDependencies_loadOrder (st : LoaderState) :
    (findDependencies st).1.loadOrder = st.loadOrder := rfl

theorem findDependencies_store (st : LoaderState) :
    (findDependencies st).1.store =
      (st.searchList.foldl (processEntry st.searchList) (st.store, [])).1 := rfl

theorem findDependencies_list (st : LoaderState) :
    (findDependencies st).2 =
      (st.searchList.foldl (processEntry st.searchList) (st.store, [])).2 := rfl

theorem findDependencies_flagged (st : LoaderState) (cid : Nat)
    (h : (st.store cid).m_loadFlags.any = true) :
    (findDependencies st).1.store cid = st.store cid ∧ cid ∉ (findDependencies st).2 := by
  obtain ⟨h1, h2⟩ := processFold_flagged st.searchList st.searchList st.store [] cid h
  refine ⟨h1, fun hm => ?_⟩
  rw [findDependencies_list] at hm
  exact absurd (h2.mp hm) (by simp)

theorem findDependencies_entry (st : LoaderState) (nm : String) (cid : Nat)
    (hvals : (st.searchList.map Prod.snd).Nodup)
    (hmem : (nm, cid) ∈ st.searchList)
    (hun : (st.store cid).m_loadFlags.any = false) :
    ((findDependencies st).1.store cid =
      (metadataDependencies (st.store cid)).foldl (walkDependency st.searchList)
        (st.store cid)) ∧
    (cid ∈ (findDependencies st).2 ↔
      ((metadataDependencies (st.store cid)).foldl (walkDependency st.searchList)
        (st.store cid)).m_loadFlags.any = false) := by
  obtain ⟨h1, h2⟩ := processFold_entry st.searchList st.searchList st.store [] nm cid
    hmem hvals hun
  refine ⟨h1, ?_⟩
  rw [findDependencies_list, h2]
  simp

theorem findDependencies_depsSub (st : LoaderState)
    (h1 : ∀ cid, (st.store cid).m_dependencies = []) :
    ∀ cid, ∀ d ∈ ((findDependencies st).1.store cid).m_dependencies,
      d ∈ st.searchList.map Prod.snd := by
  rw [findDependencies_store]
  exact processFold_depsSub st.searchList st.searchList st.store []
    (fun cid d hd => absurd hd (by rw [h1 cid]; simp))

theorem findDependencies_roots (st : LoaderState) :
    ∀ x ∈ (findDependencies st).2, x ∈ st.searchList.map Prod.snd := by
  intro x hx
  rw [findDependencies_list] at hx
  rcases processFold_roots st.searchList st.searchList st.store [] x hx with h | h
  · exact absurd h (by simp)
  · exact h

/-! ### `Component::validateDependencies` -/

theorem validateStep_fields (store : Nat → Component) (c : Component) (d : Nat) :
    (validateStep store c d).m_name = c.m_name ∧
    (validateStep store c d).m_filename = c.m_filename ∧
    (validateStep store c d).m_metadata = c.m_metadata ∧
    (validateStep store c d).m_dependencies = c.m_dependencies ∧
    (validateStep store c d).m_dependencyVersions = c.m_dependencyVersions ∧
    (validateStep store c d).m_missingDependencies = c.m_missingDependencies ∧
    (validateStep store c d).m_isLoaded = c.m_isLoaded := by
  unfold validateStep
  by_cases h1 : (store d).m_isLoaded
  · by_cases h2 : versionLtB (Component.version (store d))
        (mapLookupVersion c.m_dependencyVersions d)
    · simp [h1, h2]
    · simp [h1, h2]
  · simp [h1]

theorem validateStep_flags (store : Nat → Component) (c : Component) (d : Nat) :
    (validateStep store c d).m_loadFlags.loaded = c.m_loadFlags.loaded ∧
    (validateStep store c d).m_loadFlags.incompatibleQtVersion =
      c.m_loadFlags.incompatibleQtVersion ∧
    (validateStep store c d).m_loadFlags.nameClash = c.m_loadFlags.nameClash ∧
    (validateStep store c d).m_loadFlags.disabled = c.m_loadFlags.disabled ∧
    (validateStep store c d).m_loadFlags.unableToLoad = c.m_loadFlags.unableToLoad ∧
    (validateStep store c d).m_loadFlags.missingInterface =
      c.m_loadFlags.missingInterface ∧
    (validateStep store c d).m_loadFlags.missingDependency =
      (c.m_loadFlags.missingDependency || !(store d).m_isLoaded) ∧
    (validateStep store c d).m_loadFlags.incompatibleVersion =
      (c.m_loadFlags.incompatibleVersion ||
        ((store d).m_isLoaded && versionLtB (Component.version (store d))
          (mapLookupVersion c.m_dependencyVersions d))) := by
  unfold validateStep
  by_cases h1 : (store d).m_isLoaded
  · by_cases h2 : versionLtB (Component.version (store d))
        (mapLookupVersion c.m_dependencyVersions d)
    · simp [h1, h2, LoadFlags.setFlag]
    · simp [h1, h2]
  · simp [h1, LoadFlags.setFlag]

theorem validateFold_fields (store : Nat → Component) :
    ∀ (ds : List Nat) (c : Component),
      (ds.foldl (validateStep store) c).m_name = c.m_name ∧
      (ds.foldl (validateStep store) c).m_filename = c.m_filename ∧
      (ds.foldl (validateStep store) c).m_metadata = c.m_metadata ∧
      (ds.foldl (validateStep store) c).m_dependencies = c.m_dependencies ∧
      (ds.foldl (validateStep store) c).m_dependencyVersions = c.m_dependencyVersions ∧
      (ds.foldl (validateStep store) c).m_missingDependencies = c.m_missingDependencies ∧
      (ds.foldl (validateStep store) c).m_isLoaded = c.m_isLoaded := by
  intro ds
  induction ds with
  | nil => intro c; exact ⟨rfl, rfl, rfl, rfl, rfl, rfl, rfl⟩
  | cons d rest ih =>
    intro c
    obtain ⟨h1, h2, h3, h4, h5, h6, h7⟩ := ih (validateStep store c d)
    obtain ⟨g1, g2, g3, g4, g5, g6, g7⟩ := validateStep_fields store c d
    exact ⟨h1.trans g1, h2.trans g2, h3.trans g3, h4.trans g4, h5.trans g5,
      h6.trans g6, h7.trans g7⟩

theorem validateFold_flags (store : Nat → Component) :
    ∀ (ds : List Nat) (c : Component),
      (ds.foldl (validateStep store) c).m_loadFlags.loaded = c.m_loadFlags.loaded ∧
      (ds.foldl (validateStep store) c).m_loadFlags.incompatibleQtVersion =
        c.m_loadFlags.incompatibleQtVersion ∧
      (ds.foldl (validateStep store) c).m_loadFlags.nameClash = c.m_loadFlags.nameClash ∧
      (ds.foldl (validateStep store) c).m_loadFlags.disabled = c.m_loadFlags.disabled ∧
      (ds.foldl (validateStep store) c).m_loadFlags.unableToLoad =
        c.m_loadFlags.unableToLoad ∧
      (ds.foldl (validateStep store) c).m_loadFlags.missingInterface =
        c.m_loadFlags.missingInterface ∧
      (ds.foldl (validateStep store) c).m_loadFlags.missingDependency =
        (c.m_loadFlags.missingDependency || ds.any (fun d => !(store d).m_isLoaded)) ∧
      (ds.foldl (validateStep store) c).m_loadFlags.incompatibleVersion =
        (c.m_loadFlags.incompatibleVersion ||
          ds.any (fun d => (store d).m_isLoaded && versionLtB (Component.version (store d))
            (mapLookupVersion c.m_dependencyVersions d))) := by
  intro ds
  induction ds with
  | nil => intro c; simp
  | cons d rest ih =>
    intro c
    obtain ⟨h1, h2, h3, h4, h5, h6, h7, h8⟩ := ih (validateStep store c d)
    obtain ⟨g1, g2, g3, g4, g5, g6, g7, g8⟩ := validateStep_flags store c d
    obtain ⟨_, _, _, _, gv, _, _⟩ := validateStep_fields store c d
    refine ⟨h1.trans g1, h2.trans g2, h3.trans g3, h4.trans g4, h5.trans g5,
      h6.trans g6, ?_, ?_⟩
    · rw [List.foldl_cons, h7, g7, List.any_cons]
      cases c.m_loadFlags.missingDependency <;> cases (store d).m_isLoaded <;> simp
    · rw [List.foldl_cons, h8, g8, gv, List.any_cons]
      cases c.m_loadFlags.incompatibleVersion <;> simp [Bool.or_assoc]

theorem validateFold_id (store : Nat → Component) :
    ∀ (ds : List Nat) (c : Component),
      (∀ d ∈ ds, (store d).m_isLoaded = true ∧
        versionLtB (Component.version (store d))
          (mapLookupVersion c.m_dependencyVersions d) = false) →
      ds.foldl (validateStep store) c = c := by
  intro ds
  induction ds with
  | nil => intro c _; rfl
  | cons d rest ih =>
    intro c hok
    obtain ⟨hld, hlt⟩ := hok d (by simp)
    have hstep : validateStep store c d = c := by
      unfold validateStep
      rw [hld]
      simp [hlt]
    rw [List.foldl_cons, hstep]
    exact ih c (fun d' hd' => hok d' (List.mem_cons_of_mem d hd'))

/-! ### The load loop (lines 221-277) -/

theorem flags_any_of_anyFailure {f : LoadFlags} (h : f.anyFailure = true) :
    f.any = true := by
  simp only [LoadFlags.anyFailure] at h
  simp only [LoadFlags.any]
  cases hl : f.loaded <;> simp_all

theorem updateStore_self (store : Nat → Component) (cid : Nat) (c : Component) :
    updateStore store cid c cid = c := by
  simp [updateStore]

theorem updateStore_other (store : Nat → Component) (cid : Nat) (c : Component)
    (x : Nat) (h : x ≠ cid) : updateStore store cid c x = store x := by
  simp [updateStore, h]

theorem loadComponentStep_eq (backend : Backend) (store : Nat → Component)
    (lo : List Nat) (cid : Nat) :
    loadComponentStep backend (store, lo) cid =
      if (store cid).m_loadFlags.any = true then (store, lo)
      else
        if (Component.validateDependencies store (store cid)).m_loadFlags.any = true then
          (updateStore store cid (Component.validateDependencies store (store cid)), lo)
        else
          if (match backend.loadFunction with
              | some f => !(f cid)
              | none => false) = true then
            (updateStore (updateStore store cid (Component.validateDependencies store (store cid))) cid
              { Component.validateDependencies store (store cid) with
                  m_loadFlags := (Component.validateDependencies store (store cid)).m_loadFlags.setFlag
                    LoadFlag.disabled },
             lo)
          else if (!(backend.pluginLoads cid)) = true then
            (updateStore (updateStore store cid (Component.validateDependencies store (store cid))) cid
              { Component.validateDependencies store (store cid) with
                  m_loadFlags := (Component.validateDependencies store (store cid)).m_loadFlags.setFlag
                    LoadFlag.unableToLoad },
             lo)
          else if (!(backend.hasInterface cid)) = true then
            (updateStore (updateStore store cid (Component.validateDependencies store (store cid))) cid
              { Component.validateDependencies store (store cid) with
                  m_loadFlags := (Component.validateDependencies store (store cid)).m_loadFlags.setFlag
                    LoadFlag.missingInterface },
             lo)
          else
            (updateStore (updateStore store cid (Component.validateDependencies store (store cid))) cid
              { Component.validateDependencies store (store cid) with
                  m_loadFlags := (Component.validateDependencies store (store cid)).m_loadFlags.setFlag
                    LoadFlag.loaded,
                  m_isLoaded := true },
             lo ++ [cid]) := rfl

theorem loadComponentStep_other (backend : Backend) (store : Nat → Component)
    (lo : List Nat) (x cid : Nat) (h : cid ≠ x) :
    ((loadComponentStep backend (store, lo) x).1 cid = store cid) ∧
    (cid ∈ (loadComponentStep backend (store, lo) x).2 ↔ cid ∈ lo) := by
  rw [loadComponentStep_eq]
  split
  · exact ⟨rfl, Iff.rfl⟩
  · split
    · exact ⟨by simp [updateStore, h], Iff.rfl⟩
    · split
      · exact ⟨by simp [updateStore, h], Iff.rfl⟩
      · split
        · exact ⟨by simp [updateStore, h], Iff.rfl⟩
        · split
          · exact ⟨by simp [updateStore, h], Iff.rfl⟩
          · refine ⟨by simp [updateStore, h], ?_⟩
            constructor
            · intro hm
              rcases List.mem_append.mp hm with hm | hm
              · exact hm
              · exact absurd (by simpa using hm) h
            · intro hm
              exact List.mem_append_left _ hm

theorem loadFold_flagged (backend : Backend) :
    ∀ (L : List Nat) (store : Nat → Component) (lo : List Nat) (cid : Nat),
      (store cid).m_loadFlags.any = true →
      ((L.foldl (loadComponentStep backend) (store, lo)).1 cid = store cid) ∧
      (cid ∈ (L.foldl (loadComponentStep backend) (store, lo)).2 ↔ cid ∈ lo) := by
  intro L
  induction L with
  | nil => intro store lo cid _; exact ⟨rfl, Iff.rfl⟩
  | cons x rest ih =>
    intro store lo cid hflag
    rw [List.foldl_cons]
    by_cases hx : cid = x
    · have heq : loadComponentStep backend (store, lo) x = (store, lo) := by
        rw [loadComponentStep_eq, if_pos (hx ▸ hflag)]
      rw [heq]
      exact ih store lo cid hflag
    · obtain ⟨he1, he2⟩ := loadComponentStep_other backend store lo x cid hx
      obtain ⟨hr1, hr2⟩ := ih (loadComponentStep backend (store, lo) x).1
        (loadComponentStep backend (store, lo) x).2 cid (he1 ▸ hflag)
      rw [Prod.mk.eta] at hr1 hr2
      exact ⟨hr1.trans he1, hr2.trans he2⟩

theorem loadComponentStep_inv (backend : Backend) (store : Nat → Component)
    (lo : List Nat) (cid : Nat) (hinv : LoadInv backend store lo) :
    LoadInv backend (loadComponentStep backend (store, lo) cid).1
      (loadComponentStep backend (store, lo) cid).2 := by
  obtain ⟨i1, i2, i3⟩ := hinv
  rw [loadComponentStep_eq]
  by_cases hflag : (store cid).m_loadFlags.any = true
  · rw [if_pos hflag]
    exact ⟨i1, i2, i3⟩
  · rw [if_neg hflag]
    have hnl : (store cid).m_isLoaded = false := by
      cases hl : (store cid).m_isLoaded
      · rfl
      · exact absurd (i1 cid hl).1 hflag
    have hVl : (Component.validateDependencies store (store cid)).m_isLoaded = false := by
      rw [Component.validateDependencies]
      rw [(validateFold_fields store (store cid).m_dependencies (store cid)).2.2.2.2.2.2]
      exact hnl
    have hloNe : ∀ x ∈ lo, x ≠ cid := by
      intro x hx habs
      have := (i2 x hx).1
      rw [habs] at this
      rw [this] at hnl
      exact absurd hnl (by simp)
    have hOther : ∀ (V : Component), V.m_isLoaded = false →
        LoadInv backend (updateStore (updateStore store cid
          (Component.validateDependencies store (store cid))) cid V) lo := by
      intro V hV
      refine ⟨?_, ?_, ?_⟩
      · intro c' hc'
        by_cases hc : c' = cid
        · subst hc
          rw [updateStore_self, hV] at hc'
          exact absurd hc' (by simp)
        · rw [updateStore_other _ _ _ _ hc, updateStore_other _ _ _ _ hc] at hc' ⊢
          exact i1 c' hc'
      · intro x hx
        have hne := hloNe x hx
        rw [updateStore_other _ _ _ _ hne, updateStore_other _ _ _ _ hne]
        exact i2 x hx
      · intro c' hc'
        by_cases hc : c' = cid
        · subst hc
          rw [updateStore_self, hV] at hc'
          exact absurd hc' (by simp)
        · rw [updateStore_other _ _ _ _ hc, updateStore_other _ _ _ _ hc] at hc'
          exact i3 c' hc'
    by_cases hVany : (Component.validateDependencies store (store cid)).m_loadFlags.any = true
    · rw [if_pos hVany]
      dsimp only
      refine ⟨?_, ?_, ?_⟩
      · intro c' hc'
        by_cases hc : c' = cid
        · subst hc
          rw [updateStore_self, hVl] at hc'
          exact absurd hc' (by simp)
        · rw [updateStore_other _ _ _ _ hc] at hc' ⊢
          exact i1 c' hc'
      · intro x hx
        have hne := hloNe x hx
        rw [updateStore_other _ _ _ _ hne]
        exact i2 x hx
      · intro c' hc'
        by_cases hc : c' = cid
        · subst hc
          rw [updateStore_self, hVl] at hc'
          exact absurd hc' (by simp)
        · rw [updateStore_other _ _ _ _ hc] at hc'
          exact i3 c' hc'
    · rw [if_neg hVany]
      split
      · exact hOther _ hVl
      · split
        · exact hOther _ hVl
        · split
          · exact hOther _ hVl
          · next hInterface =>
            dsimp only
            have hVokBits : (Component.validateDependencies store (store cid)).m_loadFlags.anyFailure = false := by
              cases hB : (Component.validateDependencies store (store cid)).m_loadFlags.anyFailure
              · rfl
              · exact absurd (flags_any_of_anyFailure hB) hVany
            have hIface : backend.hasInterface cid = true := by
              cases hI : backend.hasInterface cid
              · exact absurd (by rw [hI]; rfl) hInterface
              · rfl
            refine ⟨?_, ?_, ?_⟩
            · intro c' hc'
              by_cases hc : c' = cid
              · subst hc
                rw [updateStore_self]
                constructor
                · have : ((Component.validateDependencies store (store c')).m_loadFlags.setFlag
                      LoadFlag.loaded).loaded = true := by
                    simp [LoadFlags.setFlag]
                  simp only [LoadFlags.any, this]
                  simp
                · revert hVokBits
                  simp [LoadFlags.anyFailure, LoadFlags.setFlag]
              · rw [updateStore_other _ _ _ _ hc, updateStore_other _ _ _ _ hc] at hc' ⊢
                exact i1 c' hc'
            · intro x hx
              rcases List.mem_append.mp hx with hx | hx
              · have hne := hloNe x hx
                rw [updateStore_other _ _ _ _ hne, updateStore_other _ _ _ _ hne]
                exact ⟨(i2 x hx).1, (i2 x hx).2⟩
              · have hxe : x = cid := by simpa using hx
                subst hxe
                rw [updateStore_self]
                exact ⟨rfl, hIface⟩
            · intro c' hc'
              by_cases hc : c' = cid
              · subst hc
                exact List.mem_append_right _ (by simp)
              · rw [updateStore_other _ _ _ _ hc, updateStore_other _ _ _ _ hc] at hc'
                exact List.mem_append_left _ (i3 c' hc')

theorem loadFold_inv (backend : Backend) :
    ∀ (L : List Nat) (store : Nat → Component) (lo : List Nat),
      LoadInv backend store lo →
      LoadInv backend (L.foldl (loadComponentStep backend) (store, lo)).1
        (L.foldl (loadComponentStep backend) (store, lo)).2 := by
  intro L
  induction L with
  | nil => intro store lo h; exact h
  | cons x rest ih =>
    intro store lo h
    rw [List.foldl_cons]
    have := ih (loadComponentStep backend (store, lo) x).1
      (loadComponentStep backend (store, lo) x).2
      (loadComponentStep_inv backend store lo x h)
    rw [Prod.mk.eta] at this
    exact this

/-! ### Decomposition of `loadComponents` -/

theorem loadComponents_some (backend : Backend) (st : LoaderState) (rll : List Nat)
    (h : resolveLoadOrder (fun cid => ((findDependencies st).1.store cid).m_dependencies)
        ((findDependencies st).1.searchList.length + 1) (findDependencies st).2 = some rll) :
    LoaderState.loadComponents backend st =
      some ({ (findDependencies st).1 with
                store := (rll.foldl (loadComponentStep backend)
                  ((findDependencies st).1.store, (findDependencies st).1.loadOrder)).1,
                loadOrder := (rll.foldl (loadComponentStep backend)
                  ((findDependencies st).1.store, (findDependencies st).1.loadOrder)).2 },
            (rll.foldl (loadComponentStep backend)
              ((findDependencies st).1.store, (findDependencies st).1.loadOrder)).2.map
                Ev.initialise ++
              ((rll.foldl (loadComponentStep backend)
                ((findDependencies st).1.store, (findDependencies st).1.loadOrder)).2.reverse.map
                  Ev.initialisationFinished)) := by
  unfold LoaderState.loadComponents
  dsimp only
  rw [h]

theorem loadComponents_none (backend : Backend) (st : LoaderState)
    (h : resolveLoadOrder (fun cid => ((findDependencies st).1.store cid).m_dependencies)
        ((findDependencies st).1.searchList.length + 1) (findDependencies st).2 = none) :
    LoaderState.loadComponents backend st = none := by
  unfold LoaderState.loadComponents
  dsimp only
  rw [h]

/-! ### Assorted helper lemmas for the claims -/

theorem resolveLoadOrder_def (deps : Nat → List Nat) (fuel : Nat) (roots : List Nat) :
    resolveLoadOrder deps fuel roots = roots.foldl (resolveStep deps fuel) (some []) := rfl

theorem reaches_mem_of_closed {deps : Nat → List Nat} {G : List Nat}
    (hclosed : ∀ y ∈ G, ∀ z ∈ deps y, z ∈ G) :
    ∀ {root x : Nat}, root ∈ G → Reaches deps root x → x ∈ G := by
  intro root x hroot hreach
  induction hreach with
  | refl c => exact hroot
  | step hb _ ih => exact ih (hclosed _ hroot _ hb)

theorem mapLookup_mapInsert (k : String) (v : Nat) :
    ∀ m : List (String × Nat), mapLookup (mapInsert k v m) k = v := by
  intro m
  induction m with
  | nil => simp [mapInsert, mapLookup]
  | cons e rest ih =>
    obtain ⟨k', v'⟩ := e
    by_cases h1 : strLt k k'
    · simp [mapInsert, h1, mapLookup]
    · by_cases h2 : k = k'
      · simp only [mapInsert]
        rw [if_neg h1, if_pos h2]
        simp [mapLookup]
      · have h2' : k' ≠ k := fun he => h2 he.symm
        simp only [mapInsert, h1, h2, if_false, Bool.false_eq_true]
        simpa [mapLookup, h2'] using ih

theorem jsonValue_of_not_contains {o : JsonObject} {k : String}
    (h : JsonObject.containsKey o k = false) :
    JsonObject.value o k = JsonValue.undefined := by
  induction o with
  | nil => rfl
  | cons e rest ih =>
    obtain ⟨k', v'⟩ := e
    simp only [JsonObject.containsKey, List.any_cons] at h
    rw [Bool.or_eq_false_iff] at h
    have hk : k' ≠ k := by
      intro he
      rw [he] at h
      simpa using h.1
    simp only [JsonObject.value, hk, if_false]
    exact ih (by simpa [JsonObject.containsKey] using h.2)

theorem flags_any_of_missingDependency {f : LoadFlags}
    (h : f.missingDependency = true) : f.any = true := by
  simp [LoadFlags.any, h]

theorem flags_bits_false_of_any_false {f : LoadFlags} (h : f.any = false) :
    f.loaded = false ∧ f.incompatibleQtVersion = false ∧ f.nameClash = false ∧
    f.missingDependency = false ∧ f.disabled = false ∧ f.incompatibleVersion = false ∧
    f.unableToLoad = false ∧ f.missingInterface = false := by
  simp only [LoadFlags.any, Bool.or_eq_false_iff] at h
  exact ⟨h.1.1.1.1.1.1.1, h.1.1.1.1.1.1.2, h.1.1.1.1.1.2, h.1.1.1.1.2, h.1.1.1.2,
    h.1.1.2, h.1.2, h.2⟩

theorem processEntry_isLoaded (search : List (String × Nat)) (store : Nat → Component)
    (cl : List Nat) (e : String × Nat) (cid : Nat) :
    ((processEntry search (store, cl) e).1 cid).m_isLoaded = (store cid).m_isLoaded := by
  rw [processEntry_eq]
  by_cases h1 : (store e.2).m_loadFlags.any = true
  · rw [if_pos h1]
  · rw [if_neg h1]
    by_cases hc : cid = e.2
    · by_cases h2 : (!((metadataDependencies (store e.2)).foldl (walkDependency search)
          (store e.2)).m_loadFlags.any) = true
      · rw [if_pos h2]
        dsimp only
        rw [hc, updateStore_self]
        exact (walkFold_fields search (metadataDependencies (store e.2)) (store e.2)).2.2.2
      · rw [if_neg h2]
        dsimp only
        rw [hc, updateStore_self]
        exact (walkFold_fields search (metadataDependencies (store e.2)) (store e.2)).2.2.2
    · by_cases h2 : (!((metadataDependencies (store e.2)).foldl (walkDependency search)
          (store e.2)).m_loadFlags.any) = true
      · rw [if_pos h2]
        dsimp only
        rw [updateStore_other _ _ _ _ hc]
      · rw [if_neg h2]
        dsimp only
        rw [updateStore_other _ _ _ _ hc]

theorem processFold_isLoaded (search : List (String × Nat)) :
    ∀ (entries : List (String × Nat)) (store : Nat → Component) (cl : List Nat) (cid : Nat),
      ((entries.foldl (processEntry search) (store, cl)).1 cid).m_isLoaded =
        (store cid).m_isLoaded := by
  intro entries
  induction entries with
  | nil => intro store cl cid; rfl
  | cons e rest ih =>
    intro store cl cid
    rw [List.foldl_cons]
    have := ih (processEntry search (store, cl) e).1 (processEntry search (store, cl) e).2 cid
    rw [Prod.mk.eta] at this
    rw [this, processEntry_isLoaded]

theorem findDependencies_isLoaded (st : LoaderState) (cid : Nat) :
    ((findDependencies st).1.store cid).m_isLoaded = (st.store cid).m_isLoaded := by
  rw [findDependencies_store]
  exact processFold_isLoaded st.searchList st.searchList st.store [] cid

theorem findDependencies_unflagged_of_mem (st : LoaderState)
    (hvals : (st.searchList.map Prod.snd).Nodup) :
    ∀ cid ∈ (findDependencies st).2,
      ((findDependencies st).1.store cid).m_loadFlags.any = false := by
  intro cid hcid
  have hval : cid ∈ st.searchList.map Prod.snd := findDependencies_roots st cid hcid
  obtain ⟨e, he, hesnd⟩ := List.mem_map.mp hval
  obtain ⟨nm, cid'⟩ := e
  have hc : cid' = cid := hesnd
  subst hc
  by_cases hflag : (st.store cid').m_loadFlags.any = true
  · exact absurd hcid (findDependencies_flagged st cid' hflag).2
  · have hun : (st.store cid').m_loadFlags.any = false := by
      cases hf : (st.store cid').m_loadFlags.any
      · rfl
      · exact absurd hf hflag
    obtain ⟨h1, h2⟩ := findDependencies_entry st nm cid' hvals he hun
    rw [h1]
    exact h2.mp hcid

/-! ### The claims -/

/-- Claim C1: for every input set of component records whose resolved
dependency relation is acyclic (witnessed by a rank function strictly
decreasing along resolved dependency edges), the global ordered list
produced by the resolution phase of `loadComponents` (`resolveLoadOrder`,
the merge of per-root post-order DFS lists) has no duplicates and places
every record strictly after all of the records in its resolved dependency
list. -/
theorem resolution_order_respects_acyclic_dependencies
    (deps : Nat → List Nat) (rank : Nat → Nat)
    (hrank : ∀ c d, d ∈ deps c → rank d < rank c)
    (fuel : Nat) (roots : List Nat) (G : List Nat)
    (hres : resolveLoadOrder deps fuel roots = some G) :
    G.Nodup ∧ ∀ c ∈ G, ∀ d ∈ deps c, beforeIn G d c := by
  rw [resolveLoadOrder_def] at hres
  exact resolveFold_good deps rank hrank fuel roots [] (by simp)
    (fun c hc => absurd hc (by simp)) G hres

/-- Witness for C1 at the concrete acyclic graph 1 → 0. -/
theorem resolution_order_respects_acyclic_dependencies_witness :
    (∀ c d, d ∈ wdeps c → id d < id c) ∧
    (resolveLoadOrder wdeps 3 [1] = some [0, 1]) ∧
    (([0, 1] : List Nat).Nodup ∧ ∀ c ∈ [0, 1], ∀ d ∈ wdeps c, beforeIn [0, 1] d c) := by
  have hrank : ∀ c d, d ∈ wdeps c → id d < id c := by
    intro c d hd
    by_cases hc : c = 1
    · rw [hc] at hd ⊢
      simp only [wdeps, if_pos rfl] at hd
      have hd0 : d = 0 := by simpa using hd
      rw [hd0]
      simp
    · simp only [wdeps, if_neg hc] at hd
      exact absurd hd (by simp)
  exact ⟨hrank, by decide,
    resolution_order_respects_acyclic_dependencies wdeps id hrank 3 [1] [0, 1] (by decide)⟩

/-- Claim C4: for every discovery state, including ones whose dependency
relation contains cycles, the resolution phase of `loadComponents`
terminates with the depth bound the loader uses (it returns `some`), the
resulting global ordered list has no duplicates, contains every record
reachable from a root, contains every record left unflagged by step 1, and
the whole of `loadComponents` returns a result. -/
theorem resolution_terminates_and_is_complete
    (backend : Backend) (st : LoaderState)
    (h1 : ∀ cid, (st.store cid).m_dependencies = [])
    (hvals : (st.searchList.map Prod.snd).Nodup) :
    ∃ G, resolveLoadOrder (fun cid => ((findDependencies st).1.store cid).m_dependencies)
        ((findDependencies st).1.searchList.length + 1) (findDependencies st).2 = some G ∧
      G.Nodup ∧
      (∀ root ∈ (findDependencies st).2, ∀ x,
        Reaches (fun cid => ((findDependencies st).1.store cid).m_dependencies) root x →
          x ∈ G) ∧
      (∀ nm cid, (nm, cid) ∈ st.searchList →
        ((findDependencies st).1.store cid).m_loadFlags.any = false → cid ∈ G) ∧
      ∃ out, LoaderState.loadComponents backend st = some out := by
  have hU : ∀ c d, d ∈ ((findDependencies st).1.store c).m_dependencies →
      d ∈ st.searchList.map Prod.snd := findDependencies_depsSub st h1
  have hfuel : (st.searchList.map Prod.snd).length ≤
      (findDependencies st).1.searchList.length + 1 := by
    rw [findDependencies_searchList, List.length_map]
    omega
  obtain ⟨G, hG⟩ := resolveFold_some
    (fun cid => ((findDependencies st).1.store cid).m_dependencies)
    (st.searchList.map Prod.snd) ((findDependencies st).1.searchList.length + 1)
    hU hfuel (findDependencies st).2 [] (findDependencies_roots st)
  obtain ⟨hnd, hclosed, hroots, _⟩ := resolveFold_complete
    (fun cid => ((findDependencies st).1.store cid).m_dependencies)
    ((findDependencies st).1.searchList.length + 1)
    (findDependencies st).2 [] (by simp) (by simp) G hG
  refine ⟨G, by rw [resolveLoadOrder_def]; exact hG, hnd, ?_, ?_, ?_⟩
  · intro root hroot x hx
    exact reaches_mem_of_closed hclosed (hroots root hroot) hx
  · intro nm cid hmem hunflag
    by_cases hflag : (st.store cid).m_loadFlags.any = true
    · obtain ⟨hsame, _⟩ := findDependencies_flagged st cid hflag
      rw [hsame] at hunflag
      rw [hunflag] at hflag
      exact absurd hflag (by simp)
    · have hun : (st.store cid).m_loadFlags.any = false := by
        cases hf : (st.store cid).m_loadFlags.any
        · rfl
        · exact absurd hf hflag
      obtain ⟨hwalk, hiff⟩ := findDependencies_entry st nm cid hvals hmem hun
      rw [hwalk] at hunflag
      exact hroots cid (hiff.mpr hunflag)
  · exact ⟨_, loadComponents_some backend st G (by rw [resolveLoadOrder_def]; exact hG)⟩

/-- Witness for C4 at the two-component cycle `x` ↔ `y`. -/
theorem resolution_terminates_and_is_complete_witness :
    (∀ cid, (sCyc.store cid).m_dependencies = []) ∧
    ((sCyc.searchList.map Prod.snd).Nodup) ∧
    ∃ G, resolveLoadOrder (fun cid => ((findDependencies sCyc).1.store cid).m_dependencies)
        ((findDependencies sCyc).1.searchList.length + 1) (findDependencies sCyc).2 = some G ∧
      G.Nodup ∧
      (∀ root ∈ (findDependencies sCyc).2, ∀ x,
        Reaches (fun cid => ((findDependencies sCyc).1.store cid).m_dependencies) root x →
          x ∈ G) ∧
      (∀ nm cid, (nm, cid) ∈ sCyc.searchList →
        ((findDependencies sCyc).1.store cid).m_loadFlags.any = false → cid ∈ G) ∧
      ∃ out, LoaderState.loadComponents wBackend sCyc = some out := by
  have h1 : ∀ cid, (sCyc.store cid).m_dependencies = [] := by
    intro cid
    show (sCycStore cid).m_dependencies = []
    unfold sCycStore
    by_cases h0 : cid = 0
    · rw [if_pos h0]
    · rw [if_neg h0]
      by_cases hone : cid = 1
      · rw [if_pos hone]
      · rw [if_neg hone]
  exact ⟨h1, by decide, resolution_terminates_and_is_complete wBackend sCyc h1 (by decide)⟩

/-- Claim C5: loading is monotonic — a record carrying any failure flag at
the start of `loadComponents` is never modified (in particular it never
acquires `Loaded` or `m_isLoaded`), and whenever `m_isLoaded` is true after
`loadComponents` the record's status contains no failure flag. -/
theorem loadComponents_failure_blocks_loaded
    (backend : Backend) (st : LoaderState) (out : LoaderState × List Ev)
    (h : LoaderState.loadComponents backend st = some out)
    (hlo : st.loadOrder = [])
    (hfresh : ∀ cid, (st.store cid).m_isLoaded = false) :
    (∀ cid, (st.store cid).m_loadFlags.anyFailure = true → out.1.store cid = st.store cid) ∧
    (∀ cid, (out.1.store cid).m_isLoaded = true →
      (out.1.store cid).m_loadFlags.anyFailure = false) := by
  cases hres : resolveLoadOrder (fun cid => ((findDependencies st).1.store cid).m_dependencies)
      ((findDependencies st).1.searchList.length + 1) (findDependencies st).2 with
  | none =>
    rw [loadComponents_none backend st hres] at h
    exact absurd h (by simp)
  | some rll =>
    have hout := (h.symm.trans (loadComponents_some backend st rll hres))
    have hoeq := Option.some.inj hout
    constructor
    · intro cid hfail
      have hany : (st.store cid).m_loadFlags.any = true :=
        flags_any_of_anyFailure hfail
      obtain ⟨hst1, _⟩ := findDependencies_flagged st cid hany
      have hfold := loadFold_flagged backend rll (findDependencies st).1.store
        (findDependencies st).1.loadOrder cid (by rw [hst1]; exact hany)
      rw [hoeq]
      exact hfold.1.trans hst1
    · have hInv0 : LoadInv backend (findDependencies st).1.store
          (findDependencies st).1.loadOrder := by
        refine ⟨?_, ?_, ?_⟩
        · intro cid hld
          rw [findDependencies_isLoaded st cid, hfresh cid] at hld
          exact absurd hld (by simp)
        · intro cid hcid
          rw [findDependencies_loadOrder, hlo] at hcid
          exact absurd hcid (by simp)
        · intro cid hld
          rw [findDependencies_isLoaded st cid, hfresh cid] at hld
          exact absurd hld (by simp)
      have hInv := loadFold_inv backend rll (findDependencies st).1.store
        (findDependencies st).1.loadOrder hInv0
      intro cid hld
      rw [hoeq] at hld ⊢
      exact (hInv.1 cid hld).2

/-- Witness for C5: the flagged record of `sFlag` is untouched, and the
loaded record of `sAB` carries no failure flag. -/
theorem loadComponents_failure_blocks_loaded_witness :
    (sFlagOut.1.store 1 = sFlag.store 1) ∧
    ((sABOut.1.store 0).m_loadFlags.anyFailure = false) := by
  have hfreshF : ∀ cid, (sFlag.store cid).m_isLoaded = false := by
    intro cid
    show (sFlagStore cid).m_isLoaded = false
    unfold sFlagStore
    by_cases h0 : cid = 0
    · rw [if_pos h0]
    · rw [if_neg h0]
      by_cases hone : cid = 1
      · rw [if_pos hone]
      · rw [if_neg hone]
  have hfreshAB : ∀ cid, (sAB.store cid).m_isLoaded = false := by
    intro cid
    show (sABStore cid).m_isLoaded = false
    unfold sABStore
    by_cases h0 : cid = 0
    · rw [if_pos h0]
    · rw [if_neg h0]
      by_cases hone : cid = 1
      · rw [if_pos hone]
      · rw [if_neg hone]
  refine ⟨(loadComponents_failure_blocks_loaded wBackend sFlag sFlagOut rfl rfl hfreshF).1 1
    (by decide), (loadComponents_failure_blocks_loaded wBackend sAB sABOut rfl rfl hfreshAB).2 0
    (by decide)⟩

/-- Claim C6: `validateDependencies` sets `MissingDependency` exactly for
unloaded resolved dependencies and `IncompatibleVersion` exactly for loaded
ones below the recorded minimum version, touches nothing else, is the
identity when all resolved dependencies are loaded with sufficient
versions, and the load loop skips (only writing the validation result back)
any record for which a flag fired. -/
theorem validateDependencies_spec (store : Nat → Component) (c : Component) :
    ((Component.validateDependencies store c).m_loadFlags.missingDependency =
      (c.m_loadFlags.missingDependency ||
        c.m_dependencies.any (fun d => !(store d).m_isLoaded))) ∧
    ((Component.validateDependencies store c).m_loadFlags.incompatibleVersion =
      (c.m_loadFlags.incompatibleVersion ||
        c.m_dependencies.any (fun d => (store d).m_isLoaded &&
          versionLtB (Component.version (store d))
            (mapLookupVersion c.m_dependencyVersions d)))) ∧
    ((Component.validateDependencies store c).m_loadFlags.loaded = c.m_loadFlags.loaded ∧
     (Component.validateDependencies store c).m_loadFlags.incompatibleQtVersion =
       c.m_loadFlags.incompatibleQtVersion ∧
     (Component.validateDependencies store c).m_loadFlags.nameClash =
       c.m_loadFlags.nameClash ∧
     (Component.validateDependencies store c).m_loadFlags.disabled =
       c.m_loadFlags.disabled ∧
     (Component.validateDependencies store c).m_loadFlags.unableToLoad =
       c.m_loadFlags.unableToLoad ∧
     (Component.validateDependencies store c).m_loadFlags.missingInterface =
       c.m_loadFlags.missingInterface) ∧
    ((Component.validateDependencies store c).m_name = c.m_name ∧
     (Component.validateDependencies store c).m_filename = c.m_filename ∧
     (Component.validateDependencies store c).m_metadata = c.m_metadata ∧
     (Component.validateDependencies store c).m_dependencies = c.m_dependencies ∧
     (Component.validateDependencies store c).m_dependencyVersions =
       c.m_dependencyVersions ∧
     (Component.validateDependencies store c).m_missingDependencies =
       c.m_missingDependencies ∧
     (Component.validateDependencies store c).m_isLoaded = c.m_isLoaded) ∧
    ((∀ d ∈ c.m_dependencies, (store d).m_isLoaded = true ∧
        versionLtB (Component.version (store d))
          (mapLookupVersion c.m_dependencyVersions d) = false) →
      Component.validateDependencies store c = c) ∧
    (∀ backend : Backend, ∀ lo : List Nat, ∀ cid : Nat,
      (store cid).m_loadFlags.any = false →
      (Component.validateDependencies store (store cid)).m_loadFlags.any = true →
      loadComponentStep backend (store, lo) cid =
        (updateStore store cid (Component.validateDependencies store (store cid)), lo)) := by
  obtain ⟨f1, f2, f3, f4, f5, f6, f7, f8⟩ :=
    validateFold_flags store c.m_dependencies c
  obtain ⟨g1, g2, g3, g4, g5, g6, g7⟩ := validateFold_fields store c.m_dependencies c
  refine ⟨f7, f8, ⟨f1, f2, f3, f4, f5, f6⟩, ⟨g1, g2, g3, g4, g5, g6, g7⟩, ?_, ?_⟩
  · intro hok
    exact validateFold_id store c.m_dependencies c hok
  · intro backend lo cid hpre hfired
    rw [loadComponentStep_eq, if_neg (by rw [hpre]; simp), if_pos hfired]

/-- Witness for C6: a record whose single dependency is loaded with a
sufficient version is left unchanged. -/
theorem validateDependencies_spec_witness :
    Component.validateDependencies vStore vComp = vComp :=
  (validateDependencies_spec vStore vComp).2.2.2.2.1 (by decide)

/-- Claim C7: the `initialiseEvent` sequence of `loadComponents` is exactly
the loaded components in resolved load order, the
`initialisationFinishedEvent` sequence is exactly its reverse, and the
`finaliseEvent` sequence of `unloadComponents` is exactly its reverse. -/
theorem lifecycle_event_order
    (backend : Backend) (st : LoaderState) (out : LoaderState × List Ev)
    (h : LoaderState.loadComponents backend st = some out)
    (hlo : st.loadOrder = [])
    (hfresh : ∀ cid, (st.store cid).m_isLoaded = false) :
    (out.2 = out.1.loadOrder.map Ev.initialise ++
      out.1.loadOrder.reverse.map Ev.initialisationFinished) ∧
    (∀ cid, (out.1.store cid).m_isLoaded = true ↔ cid ∈ out.1.loadOrder) ∧
    ((LoaderState.unloadComponents backend.hasInterface out.1).2 =
      out.1.loadOrder.reverse.map Ev.finalise) := by
  cases hres : resolveLoadOrder (fun cid => ((findDependencies st).1.store cid).m_dependencies)
      ((findDependencies st).1.searchList.length + 1) (findDependencies st).2 with
  | none =>
    rw [loadComponents_none backend st hres] at h
    exact absurd h (by simp)
  | some rll =>
    have hout := (h.symm.trans (loadComponents_some backend st rll hres))
    have hoeq := Option.some.inj hout
    have hInv0 : LoadInv backend (findDependencies st).1.store
        (findDependencies st).1.loadOrder := by
      refine ⟨?_, ?_, ?_⟩
      · intro cid hld
        rw [findDependencies_isLoaded st cid, hfresh cid] at hld
        exact absurd hld (by simp)
      · intro cid hcid
        rw [findDependencies_loadOrder, hlo] at hcid
        exact absurd hcid (by simp)
      · intro cid hld
        rw [findDependencies_isLoaded st cid, hfresh cid] at hld
        exact absurd hld (by simp)
    have hInv := loadFold_inv backend rll (findDependencies st).1.store
      (findDependencies st).1.loadOrder hInv0
    refine ⟨?_, ?_, ?_⟩
    · rw [hoeq]
    · intro cid
      rw [hoeq]
      exact ⟨fun hld => hInv.2.2 cid hld, fun hm => (hInv.2.1 cid hm).1⟩
    · rw [hoeq]
      unfold LoaderState.unloadComponents
      dsimp only
      rw [List.filter_eq_self.mpr ?_]
      intro a ha
      rw [List.mem_reverse] at ha
      exact (hInv.2.1 a ha).2

/-- Witness for C7 at the `a`, `b` session. -/
theorem lifecycle_event_order_witness :
    (sABOut.2 = sABOut.1.loadOrder.map Ev.initialise ++
      sABOut.1.loadOrder.reverse.map Ev.initialisationFinished) ∧
    ((sABOut.1.store 0).m_isLoaded = true ↔ 0 ∈ sABOut.1.loadOrder) ∧
    ((LoaderState.unloadComponents wBackend.hasInterface sABOut.1).2 =
      sABOut.1.loadOrder.reverse.map Ev.finalise) := by
  have hfreshAB : ∀ cid, (sAB.store cid).m_isLoaded = false := by
    intro cid
    show (sABStore cid).m_isLoaded = false
    unfold sABStore
    by_cases h0 : cid = 0
    · rw [if_pos h0]
    · rw [if_neg h0]
      by_cases hone : cid = 1
      · rw [if_pos hone]
      · rw [if_neg hone]
  obtain ⟨h1, h2, h3⟩ := lifecycle_event_order wBackend sAB sABOut rfl rfl hfreshAB
  exact ⟨h1, h2 0, h3⟩

/-- Claim C9: `canBeDisabled` returns `true` when the metadata object has no
`CanBeDisabled` key, and returns exactly the stored boolean when the key is
present with a boolean value. -/
theorem canBeDisabled_spec (c : Component) :
    ((((JsonObject.value c.m_metadata "MetaData").toObject).containsKey
        "CanBeDisabled") = false → c.canBeDisabled = true) ∧
    (∀ b, JsonObject.value ((JsonObject.value c.m_metadata "MetaData").toObject)
        "CanBeDisabled" = JsonValue.bool b → c.canBeDisabled = b) := by
  constructor
  · intro h
    unfold Component.canBeDisabled
    rw [if_neg (by rw [h]; simp)]
  · intro b hb
    unfold Component.canBeDisabled
    have hc : (((JsonObject.value c.m_metadata "MetaData").toObject).containsKey
        "CanBeDisabled") = true := by
      cases hk : (((JsonObject.value c.m_metadata "MetaData").toObject).containsKey
          "CanBeDisabled")
      · rw [jsonValue_of_not_contains hk] at hb
        exact absurd hb (by intro habs; cases habs)
      · rfl
    rw [if_pos hc, hb]
    rfl

/-- Witness for C9: a component without the key is disableable, one with the
key set to `false` is not. -/
theorem canBeDisabled_spec_witness :
    cbdCompNone.canBeDisabled = true ∧ cbdCompFalse.canBeDisabled = false :=
  ⟨(canBeDisabled_spec cbdCompNone).1 (by decide),
   (canBeDisabled_spec cbdCompFalse).2 false rfl⟩

/-- Claim C10: `unloadComponents` clears `m_loadOrder`, so a second
consecutive call emits no `finaliseEvent` callbacks and leaves the loader
state (including every component record) unchanged. -/
theorem unloadComponents_idempotent (hasInterface : Nat → Bool) (st : LoaderState) :
    LoaderState.unloadComponents hasInterface
        (LoaderState.unloadComponents hasInterface st).1 =
      ((LoaderState.unloadComponents hasInterface st).1, []) := rfl

/-- Claim C2 (counterexample): in the duplicate-name session `sDup` the
second-discovered component (id 1) is flagged `NameClash` but it is NOT
excluded from the search map — it replaces the first-registered component
(id 0) there, and the dependent resolves its dependency on `a` to id 1, not
to the first-registered id 0.  This refutes the claim that every dependency
on the clashing name resolves to the first-registered component. -/
theorem nameClash_first_wins_counterexample :
    ((sDup.store 0).m_name = "a") ∧ ((sDup.store 1).m_name = "a") ∧
    ((sDup.store 1).m_loadFlags.nameClash = true) ∧
    (mapLookup sDup.searchList "a" = 1) ∧
    (((findDependencies sDup).1.store 2).m_dependencies = [1]) ∧
    ¬(((findDependencies sDup).1.store 2).m_dependencies = [0]) := by
  refine ⟨by decide, by decide, by decide, by decide, by decide, by decide⟩

/-- Claim C2 (amended): when `addComponents` registers a component whose name
is already in the search map, the new component is flagged `NameClash` and
it *replaces* the previous holder of the name in the map, so subsequent
dependency lookups of that name resolve to the newly registered (flagged)
component — last registered wins the map slot. -/
theorem nameClash_last_registered_wins (st : LoaderState) (nextId : Nat)
    (component : Component) (componentName : String)
    (h : mapContains st.searchList componentName = true) :
    (((registerComponent st nextId component componentName).1.store
        nextId).m_loadFlags.nameClash = true) ∧
    (mapLookup (registerComponent st nextId component componentName).1.searchList
        componentName = nextId) := by
  unfold registerComponent
  rw [if_pos h]
  dsimp only
  constructor
  · rw [updateStore_self]
    simp [LoadFlags.setFlag]
  · rw [mapLookup_mapInsert]

/-- Witness for the amended C2 at a concrete clash. -/
theorem nameClash_last_registered_wins_witness :
    (mapContains sReg.searchList "a" = true) ∧
    (((registerComponent sReg 1 ({} : Component) "a").1.store 1).m_loadFlags.nameClash =
      true) ∧
    (mapLookup (registerComponent sReg 1 ({} : Component) "a").1.searchList "a" = 1) :=
  ⟨by decide, (nameClash_last_registered_wins sReg 1 ({} : Component) "a" (by decide)).1,
   (nameClash_last_registered_wins sReg 1 ({} : Component) "a" (by decide)).2⟩

/-- Claim C3 (counterexample): in session `sFlag` the record `b` (id 1) is
flagged after step 1 (incompatible Qt version from discovery), yet it
appears in the global ordered list produced by the resolution phase, because
`resolve` traverses it as a dependency of the unflagged `a`.  This refutes
the claim that flagged records never appear in the ordered list. -/
theorem flagged_record_in_resolved_list_counterexample :
    (((findDependencies sFlag).1.store 1).m_loadFlags.any = true) ∧
    (resolveLoadOrder (fun cid => ((findDependencies sFlag).1.store cid).m_dependencies)
        ((findDependencies sFlag).1.searchList.length + 1) (findDependencies sFlag).2 =
      some [1, 0]) ∧
    (1 ∈ ([1, 0] : List Nat)) := by
  refine ⟨by decide, by decide, by decide⟩

/-- Claim C3 (amended): a record flagged at the end of step 1 is never a DFS
root (never in `componentLoadList`); it may still appear in the ordered list
as a dependency of an unflagged record, but the load loop leaves it
completely unchanged and it never joins `m_loadOrder`. -/
theorem flagged_records_never_roots_never_loaded
    (backend : Backend) (st : LoaderState) (out : LoaderState × List Ev)
    (h : LoaderState.loadComponents backend st = some out)
    (hvals : (st.searchList.map Prod.snd).Nodup) :
    ∀ cid, ((findDependencies st).1.store cid).m_loadFlags.any = true →
      cid ∉ (findDependencies st).2 ∧
      out.1.store cid = (findDependencies st).1.store cid ∧
      (cid ∈ out.1.loadOrder ↔ cid ∈ st.loadOrder) := by
  intro cid hflag
  have hnotmem : cid ∉ (findDependencies st).2 := by
    intro hm
    have := findDependencies_unflagged_of_mem st hvals cid hm
    rw [this] at hflag
    exact absurd hflag (by simp)
  cases hres : resolveLoadOrder (fun cid => ((findDependencies st).1.store cid).m_dependencies)
      ((findDependencies st).1.searchList.length + 1) (findDependencies st).2 with
  | none =>
    rw [loadComponents_none backend st hres] at h
    exact absurd h (by simp)
  | some rll =>
    have hout := (h.symm.trans (loadComponents_some backend st rll hres))
    have hoeq := Option.some.inj hout
    have hfold := loadFold_flagged backend rll (findDependencies st).1.store
      (findDependencies st).1.loadOrder cid hflag
    refine ⟨hnotmem, by rw [hoeq]; exact hfold.1, ?_⟩
    rw [hoeq]
    exact hfold.2.trans (by rw [findDependencies_loadOrder])

/-- Witness for the amended C3 at session `sFlag`, record 1. -/
theorem flagged_records_never_roots_never_loaded_witness :
    (((findDependencies sFlag).1.store 1).m_loadFlags.any = true) ∧
    (1 ∉ (findDependencies sFlag).2 ∧
     sFlagOut.1.store 1 = (findDependencies sFlag).1.store 1 ∧
     (1 ∈ sFlagOut.1.loadOrder ↔ 1 ∈ sFlag.loadOrder)) :=
  ⟨by decide,
   flagged_records_never_roots_never_loaded wBackend sFlag sFlagOut rfl (by decide) 1
     (by decide)⟩

/-- Claim C8 (counterexample): the record of `sMissFlagged` declares a
dependency on the undiscovered name `zzz`, but because it already carries
the `IncompatibleQtVersion` flag, step 1 skips its dependency walk entirely:
after `loadComponents` its status does NOT contain `MissingDependency` and
`zzz` is not recorded in its missing-dependency list.  This refutes the
claim's "regardless of any other flags the record already carried". -/
theorem missingDependency_flagged_record_counterexample :
    ("zzz" ∈ parsedDepNames (sMissFlagged.store 0)) ∧
    (mapContains sMissFlagged.searchList "zzz" = false) ∧
    (LoaderState.loadComponents wBackend sMissFlagged = some sMissFlaggedOut) ∧
    ((sMissFlaggedOut.1.store 0).m_loadFlags.missingDependency = false) ∧
    ¬("zzz" ∈ (sMissFlaggedOut.1.store 0).m_missingDependencies) := by
  refine ⟨by decide, by decide, rfl, by decide, by decide⟩

/-- Claim C8 (amended): for a record with no flags at the start of the
dependency walk that declares a dependency whose name is absent from the
search map, `loadComponents` sets `MissingDependency`, records the name in
`m_missingDependencies`, and the record never acquires `Loaded` or
`m_isLoaded`.  (A record already flagged is skipped by the walk, so it never
gains `MissingDependency`; it never loads either.) -/
theorem missingDependency_set_for_unflagged_records
    (backend : Backend) (st : LoaderState) (out : LoaderState × List Ev)
    (nm : String) (cid : Nat) (depName : String)
    (h : LoaderState.loadComponents backend st = some out)
    (hvals : (st.searchList.map Prod.snd).Nodup)
    (hmem : (nm, cid) ∈ st.searchList)
    (hflags : (st.store cid).m_loadFlags.any = false)
    (hldd : (st.store cid).m_isLoaded = false)
    (hdep : depName ∈ parsedDepNames (st.store cid))
    (hmiss : mapContains st.searchList depName = false) :
    ((out.1.store cid).m_loadFlags.missingDependency = true) ∧
    (depName ∈ (out.1.store cid).m_missingDependencies) ∧
    ((out.1.store cid).m_loadFlags.loaded = false) ∧
    ((out.1.store cid).m_isLoaded = false) := by
  obtain ⟨hwalk, _⟩ := findDependencies_entry st nm cid hvals hmem hflags
  obtain ⟨jd, hjd, hjdname⟩ := List.mem_map.mp hdep
  have hjdmiss : mapContains st.searchList (dependencyEntryName jd) = false := by
    rw [hjdname]
    exact hmiss
  obtain ⟨w1, _, _, _, _, _, _, w8⟩ :=
    walkFold_flags st.searchList (metadataDependencies (st.store cid)) (st.store cid)
  have hmissingBit : ((metadataDependencies (st.store cid)).foldl
      (walkDependency st.searchList) (st.store cid)).m_loadFlags.missingDependency = true := by
    rw [w8]
    refine Bool.or_eq_true_iff.mpr (Or.inr ?_)
    rw [List.any_eq_true]
    exact ⟨jd, hjd, by rw [hjdmiss]; rfl⟩
  have hnames : depName ∈ ((metadataDependencies (st.store cid)).foldl
      (walkDependency st.searchList) (st.store cid)).m_missingDependencies := by
    rw [← hjdname]
    exact (walkFold_missing st.searchList (metadataDependencies (st.store cid))
      (st.store cid)).2 jd hjd hjdmiss
  have hloadedBit : ((metadataDependencies (st.store cid)).foldl
      (walkDependency st.searchList) (st.store cid)).m_loadFlags.loaded = false := by
    rw [w1]
    exact (flags_bits_false_of_any_false hflags).1
  have hisLoaded : ((metadataDependencies (st.store cid)).foldl
      (walkDependency st.searchList) (st.store cid)).m_isLoaded = false := by
    rw [(walkFold_fields st.searchList (metadataDependencies (st.store cid))
      (st.store cid)).2.2.2]
    exact hldd
  have hany : ((findDependencies st).1.store cid).m_loadFlags.any = true := by
    rw [hwalk]
    exact flags_any_of_missingDependency hmissingBit
  cases hres : resolveLoadOrder (fun cid => ((findDependencies st).1.store cid).m_dependencies)
      ((findDependencies st).1.searchList.length + 1) (findDependencies st).2 with
  | none =>
    rw [loadComponents_none backend st hres] at h
    exact absurd h (by simp)
  | some rll =>
    have hout := (h.symm.trans (loadComponents_some backend st rll hres))
    have hoeq := Option.some.inj hout
    have hfold := loadFold_flagged backend rll (findDependencies st).1.store
      (findDependencies st).1.loadOrder cid hany
    have houtstore : out.1.store cid = (metadataDependencies (st.store cid)).foldl
        (walkDependency st.searchList) (st.store cid) := by
      rw [hoeq]
      exact hfold.1.trans hwalk
    rw [houtstore]
    exact ⟨hmissingBit, hnames, hloadedBit, hisLoaded⟩

/-- Witness for the amended C8 at session `sMiss`. -/
theorem missingDependency_set_for_unflagged_records_witness :
    ((sMissOut.1.store 0).m_loadFlags.missingDependency = true) ∧
    ("zzz" ∈ (sMissOut.1.store 0).m_missingDependencies) ∧
    ((sMissOut.1.store 0).m_loadFlags.loaded = false) ∧
    ((sMissOut.1.store 0).m_isLoaded = false) :=
  missingDependency_set_for_unflagged_records wBackend sMiss sMissOut "a" 0 "zzz" rfl
    (by decide) (by decide) (by decide) (by decide) (by decide) (by decide)

end ComponentSystem
